import Mathlib

/-!
Verification development for the NVMe-Strom kernel module core
(src/nvme-strom.c): shallow embeddings of the GPU memory mapper, the
handle registries, the DMA task bookkeeping and the copy-descriptor
coalescing engine, together with theorems checking the specification's
claims against those embeddings.

Conventions used throughout:
* C `unsigned long` / `u64` values are modelled as `Nat`, with an
  explicit `% 2 ^ 64` (or a no-overflow hypothesis) where overflow could
  matter.  Bit-mask operations with `GPU_BOUND_MASK` / `GPU_BOUND_OFFSET`
  are translated to their arithmetic meaning on a 64-bit value
  (`v &&& 0xffff = v % 65536`, `v &&& ~0xffff = 65536 * (v / 65536)`).
* negative C error returns (`-EFAULT`, ...) are modelled as negative
  `Int` values; `0` is success.
* the hash-sharded tables `strom_mgmem_slots[48]` / `strom_dma_task_slots[100]`
  are collapsed to a single list each: the shard of an entry is a
  deterministic function of its handle (`arch_fast_hash`), every lookup
  and unlink goes to that one shard, and each shard's mutex makes each
  critical section atomic, so membership and lookup over the union of the
  shards is exactly membership and lookup in one list, and each locked
  critical section becomes one atomic step of the transition systems
  below.
-/

namespace NvmeStrom

/-! ## Error numbers (linux `errno-base.h` values, returned negated) -/

def ENOENT : Int := 2
def EBADF : Int := 9
def ENOMEM : Int := 12
def EFAULT : Int := 14
def EINVAL : Int := 22

/-! ## Alignment constants (`GPU_BOUND_*`, src/nvme-strom.c:48-51) -/

def GPU_BOUND_SHIFT : Nat := 16

def GPU_BOUND_SIZE : Nat := 2 ^ GPU_BOUND_SHIFT

/-! ## GPU memory mapping arithmetic (`strom_ioctl_map_gpu_memory`,
src/nvme-strom.c:283-292)

The C code computes, on 64-bit unsigned arithmetic:
  `map_address = karg.vaddress & GPU_BOUND_MASK;`
  `map_offset  = karg.vaddress & GPU_BOUND_OFFSET;`
  `mgmem->map_length = map_offset + karg.length;`
`GPU_BOUND_OFFSET` is `2^16 - 1` and `GPU_BOUND_MASK` its 64-bit
complement, so on a 64-bit value the two masks are `% 2^16` and rounding
down to a multiple of `2^16`; the length addition wraps at `2^64`. -/

def map_address (vaddress : Nat) : Nat :=
  GPU_BOUND_SIZE * (vaddress / GPU_BOUND_SIZE)

def map_offset (vaddress : Nat) : Nat :=
  vaddress % GPU_BOUND_SIZE

def map_length (vaddress length : Nat) : Nat :=
  (map_offset vaddress + length) % 2 ^ 64

/-! ## DMA task registry (`strom_dma_task`, src/nvme-strom.c:656-692)

One entry of the `strom_dma_task_slots[]` registry.  The fields that the
cleanup / wait paths read are kept; the chunk array is irrelevant to
those paths.  `pinnedPages` stands for the pages collected in
`dma_pages_list` (`strom_dma_pages`), identified by arbitrary ids. -/

structure DmaTaskEntry where
  dma_task_id : Nat
  mgmemHandle : Nat
  hasFilp : Bool
  wait_task : Option Nat
  pinnedPages : List Nat
deriving DecidableEq

/-- Side effects performed by `strom_cleanup_dma_task`, recorded as
lists/counters so that "exactly once" is expressible: which mapped-memory
handles received a `strom_put_mapped_gpu_memory`, how many `fput` calls
ran, which tasks were woken with `wake_up_process`, which pages received
a `put_page`, and which task objects were `kfree`d. -/
structure CleanupActs where
  mgmemPuts : List Nat
  fputs : Nat
  wakes : List Nat
  pagePuts : List Nat
  kfrees : List Nat
deriving DecidableEq

/-- `strom_cleanup_dma_task` (src/nvme-strom.c:711-740): look the task up
in its slot; if found, `list_del` it, `strom_put_mapped_gpu_memory` the
destination, `fput` the file if any, wake the waiter if any, and `kfree`
the task.  Note that the function never walks `dma_pages_list`: no
`put_page` is issued for the pinned source pages. -/
def strom_cleanup_dma_task (dma_task_id : Nat) (reg : List DmaTaskEntry) :
    List DmaTaskEntry × CleanupActs :=
  match reg.find? (fun d => d.dma_task_id == dma_task_id) with
  | some dtask =>
      (reg.eraseP (fun d => d.dma_task_id == dma_task_id),
       { mgmemPuts := [dtask.mgmemHandle]
         fputs := if dtask.hasFilp then 1 else 0
         wakes := dtask.wait_task.toList
         pagePuts := []
         kfrees := [dtask.dma_task_id] })
  | none =>
      (reg, { mgmemPuts := [], fputs := 0, wakes := [], pagePuts := [], kfrees := [] })

/-! ## Waiting for a DMA task (`strom_memcpy_ssd2gpu_wait`,
src/nvme-strom.c:1143-1190) -/

/-- `strom_memcpy_ssd2gpu_wait`: if the task is found in its slot the
caller registers itself as waiter, sleeps until the completion path wakes
it, and the function returns `0`; if the task is not found the function
returns `-ENOENT` (the comment notes the task most likely already
completed, but `-ENOENT` is still what is returned). Only the return
value is modelled here; the waiter hand-off is part of the cleanup model
above. -/
def strom_memcpy_ssd2gpu_wait (dma_task_id : Nat) (reg : List DmaTaskEntry) : Int :=
  match reg.find? (fun d => d.dma_task_id == dma_task_id) with
  | some _ => 0
  | none => -ENOENT

/-- `strom_ioctl_memcpy_ssd2gpu_wait` (src/nvme-strom.c:1237-1246):
copy the argument from user space (`copyOk` is the outcome of
`copy_from_user`), then return `strom_memcpy_ssd2gpu_wait`'s result
directly to the caller. -/
def strom_ioctl_memcpy_ssd2gpu_wait (copyOk : Bool) (dma_task_id : Nat)
    (reg : List DmaTaskEntry) : Int :=
  if copyOk then strom_memcpy_ssd2gpu_wait dma_task_id reg else -EFAULT

/-! ## `strom_ioctl_map_gpu_memory` and `strom_ioctl_info_gpu_memory`
(src/nvme-strom.c:266-368, 394-431)

External collaborators (`copy_from_user`, `kmalloc`,
`__nvidia_p2p_get_pages`, `put_user`) are modelled by an environment
record carrying their outcomes for this call. -/

/-- The `page_size` member of `nvidia_p2p_page_table_t`: one of the
`NVIDIA_P2P_PAGE_SIZE_*` enumerators (an opaque flag, not a byte count),
or any other value. -/
inductive P2pPageSizeFlag where
  | sz4KB
  | sz64KB
  | sz128KB
  | other
deriving DecidableEq

/-- The parts of `nvidia_p2p_page_table_t` the driver reads: the version,
the page-size flag, and the per-entry physical addresses
(`pages[i]->physical_address`); `entries` is the length of that list. -/
structure P2pPageTable where
  version : Nat
  pageSizeFlag : P2pPageSizeFlag
  physAddrs : List Nat
deriving DecidableEq

/-- The `switch (mgmem->page_table->page_size)` classification
(src/nvme-strom.c:311-325): 4 KiB, 64 KiB or 128 KiB in bytes, anything
else is unsupported (`-EINVAL`). -/
def classifyPageSize : P2pPageSizeFlag → Option Nat
  | .sz4KB => some (4 * 1024)
  | .sz64KB => some (64 * 1024)
  | .sz128KB => some (128 * 1024)
  | .other => none

/-- One registered `mapped_gpu_memory` entry as the map ioctl builds it
(refcnt/wait_task start as 0/none and are the transition system's
business below). -/
structure GpuSegment where
  handle : Nat
  map_address : Nat
  map_offset : Nat
  map_length : Nat
  page_size : Nat
  page_table : P2pPageTable
deriving DecidableEq

/-- Outcomes of the external calls made by one `strom_ioctl_map_gpu_memory`
invocation: `copy_from_user` success, `kmalloc` success, the result of
`__nvidia_p2p_get_pages` (the handle is the `kmalloc`ed address, supplied
here as `newHandle`), and `put_user` success. -/
structure MapEnv where
  copyOk : Bool
  kmallocOk : Bool
  pin : Except Int P2pPageTable
  newHandle : Nat
  putUserOk : Bool

/-- Result of one map ioctl: the returned value, how many
`__nvidia_p2p_put_pages` and `kfree(mgmem)` calls ran on the way out, and
the registry after the call. -/
structure MapOutcome where
  rc : Int
  putPages : Nat
  kfree : Nat
  registry : List GpuSegment
deriving DecidableEq

/-- `strom_ioctl_map_gpu_memory` (src/nvme-strom.c:266-368): copy the
argument in, allocate, pin via `__nvidia_p2p_get_pages`, classify the
page size, copy the handle out, and only then link the new entry into
`strom_mgmem_slots[]`.  `error_2` releases the pin and frees the entry;
`error_1` only frees the entry. -/
def strom_ioctl_map_gpu_memory (env : MapEnv) (vaddress length : Nat)
    (reg : List GpuSegment) : MapOutcome :=
  if ¬ env.copyOk then
    { rc := -EFAULT, putPages := 0, kfree := 0, registry := reg }
  else if ¬ env.kmallocOk then
    { rc := -ENOMEM, putPages := 0, kfree := 0, registry := reg }
  else
    match env.pin with
    | .error rc =>
        { rc := rc, putPages := 0, kfree := 1, registry := reg }
    | .ok pt =>
        match classifyPageSize pt.pageSizeFlag with
        | none =>
            { rc := -EINVAL, putPages := 1, kfree := 1, registry := reg }
        | some ps =>
            if ¬ env.putUserOk then
              { rc := -EFAULT, putPages := 1, kfree := 1, registry := reg }
            else
              { rc := 0, putPages := 0, kfree := 0,
                registry :=
                  { handle := env.newHandle
                    map_address := map_address vaddress
                    map_offset := map_offset vaddress
                    map_length := map_length vaddress length
                    page_size := ps
                    page_table := pt } :: reg }

/-- The segment `strom_ioctl_map_gpu_memory` links on success, if every
step up to the linking succeeds (`none` when pinning or page-size
classification fails). -/
def linkedSegment (env : MapEnv) (vaddress length : Nat) : Option GpuSegment :=
  match env.pin with
  | .error _ => none
  | .ok pt =>
      (classifyPageSize pt.pageSizeFlag).map (fun ps =>
        { handle := env.newHandle
          map_address := map_address vaddress
          map_offset := map_offset vaddress
          map_length := map_length vaddress length
          page_size := ps
          page_table := pt })

/-- `strom_ioctl_info_gpu_memory` (src/nvme-strom.c:394-431): look the
handle up (via `strom_get_mapped_gpu_memory`; the paired
`strom_put_mapped_gpu_memory` at the end makes the refcount round-trip
neutral, so the registry is left as it was and only outputs are
modelled).  `copyHeadOk` is the outcome of the header `copy_to_user`;
`putFailAt` gives the index at which a `put_user` of a physical address
would fail, if any.  Returns the return code, the header copied out
(version, page size in bytes, entry count), and the list of physical
addresses written to the user array. -/
def strom_ioctl_info_gpu_memory (handle nrooms : Nat) (reg : List GpuSegment)
    (copyHeadOk : Bool) (putFailAt : Option Nat) :
    Int × Option (Nat × Nat × Nat) × List Nat :=
  match reg.find? (fun m => m.handle == handle) with
  | none => (-ENOENT, none, [])
  | some mgmem =>
      let entries := mgmem.page_table.physAddrs.length
      let limit := min nrooms entries
      let stop := match putFailAt with
        | some k => min k limit
        | none => limit
      let failed : Bool := match putFailAt with
        | some k => k < limit
        | none => false
      ((if ¬ copyHeadOk ∨ failed then -EFAULT else 0),
       (if copyHeadOk then some (mgmem.page_table.version, mgmem.page_size, entries)
        else none),
       mgmem.page_table.physAddrs.take stop)

/-! ## The mapped-GPU-memory registry as a transition system
(src/nvme-strom.c:70-259)

Per-segment mutable state is `refcnt` (an `Int`, so that non-negativity
is a statement and not a typing artifact) and `wait_task`.  The machine's
atomic steps are the mutex-protected critical sections of the C code:

* `map h`    — the successful tail of `strom_ioctl_map_gpu_memory`
               (`list_add` of a fresh entry, refcnt 0);
* `get h`    — `strom_get_mapped_gpu_memory`: find in the slot chain and
               `refcnt++`; a miss changes nothing;
* `put h`    — `strom_put_mapped_gpu_memory` /
               `__strom_put_mapped_gpu_memory`: `BUG_ON(refcnt < 1)`,
               `refcnt--`, and if it reached 0 and `wait_task` is set,
               `wake_up_process(wait_task)` and clear it.  The entry may
               be linked or already detached by a concurrent cleanup; the
               `BUG_ON` is modelled as a guard (when it would fire the
               kernel halts, so no state transition results);
* `cleanupStart h t` — `__strom_clenup_mapped_gpu_memory` up to the
               `schedule()`: find, `list_del` (unlink before any
               waiting), then either free at once when `refcnt == 0`, or
               record `current` (`t`) as `wait_task` (saving the previous
               waiter) and go to sleep;
* `cleanupFinish h` — the same function after the wake-up: release the
               page table pin and `kfree` the entry, waking the saved
               waiter.  It is enabled once the final `put` has driven
               `refcnt` to 0 and cleared `wait_task` (that is exactly
               when `wake_up_process` has run).  The inverted assertion
               `BUG_ON(mgmem->refcnt == 0)` at src/nvme-strom.c:230
               (which would fire precisely in this state) is treated as
               diagnostic and not modelled as a guard.

`__strom_clenup_mapped_gpu_memory` serves both the unmap ioctl and the
driver revocation callback `strom_cleanup_mapped_gpu_memory`, so the two
`cleanup` steps model both teardown entry points. -/

/-- Mutable per-segment state of `struct mapped_gpu_memory`. -/
structure MSeg where
  handle : Nat
  refcnt : Int
  wait_task : Option Nat
deriving DecidableEq

/-- State of the mapped-memory subsystem: the linked slot chains
(collapsed to one list), the entries already `list_del`ed by an
in-progress teardown (paired with that teardown's saved
`wait_task_saved`), plus event logs: handles whose page-table pin was
released and entry freed, and tasks passed to `wake_up_process`. -/
structure MgmemState where
  slots : List MSeg
  detached : List (MSeg × Option Nat)
  freed : List Nat
  wakes : List Nat
deriving DecidableEq

def initMgmem : MgmemState :=
  { slots := [], detached := [], freed := [], wakes := [] }

def MgmemState.allSegs (st : MgmemState) : List MSeg :=
  st.slots ++ st.detached.map Prod.fst

def slotHandles (st : MgmemState) : List Nat :=
  st.slots.map MSeg.handle

def detachedHandles (st : MgmemState) : List Nat :=
  (st.detached.map Prod.fst).map MSeg.handle

/-- The registry search of `strom_get_mapped_gpu_memory`
(src/nvme-strom.c:127-155): walk the slot chain for the handle. -/
def lookupMgmem (handle : Nat) (st : MgmemState) : Option MSeg :=
  st.slots.find? (fun s => s.handle == handle)

/-- Search over linked and detached entries: a task that already holds a
pointer can still reach a detached entry (`strom_put_mapped_gpu_memory`
takes the pointer, not a lookup). -/
def findSegAll (handle : Nat) (st : MgmemState) : Option MSeg :=
  st.allSegs.find? (fun s => s.handle == handle)

inductive MgOp where
  | map (h : Nat)
  | get (h : Nat)
  | put (h : Nat)
  | cleanupStart (h t : Nat)
  | cleanupFinish (h : Nat)
deriving DecidableEq

/-- Replace the state of the segment with handle `h` (in whichever list
holds it) by `s'`. -/
def replaceSeg (h : Nat) (s' : MSeg) (st : MgmemState) : MgmemState :=
  { st with
    slots := st.slots.map (fun x => if x.handle == h then s' else x)
    detached := st.detached.map (fun p => if p.1.handle == h then (s', p.2) else p) }

/-- `__strom_put_mapped_gpu_memory` (src/nvme-strom.c:160-181) as a step:
guarded by `BUG_ON(refcnt < 1)`; decrement, and when the count reaches 0
with a registered waiter, wake that waiter and clear the slot. -/
def applyPut (h : Nat) (st : MgmemState) : MgmemState :=
  match findSegAll h st with
  | none => st
  | some s =>
      if 1 ≤ s.refcnt then
        if s.refcnt - 1 = 0 then
          { replaceSeg h { s with refcnt := s.refcnt - 1, wait_task := none } st with
            wakes := s.wait_task.toList ++ st.wakes }
        else
          replaceSeg h { s with refcnt := s.refcnt - 1 } st
      else
        st

/-- `__strom_clenup_mapped_gpu_memory` (src/nvme-strom.c:186-253) up to
the `schedule()`: unlink first; with no concurrent user, release the pin
and free right away; otherwise park `t` as the waiter (saving the former
`wait_task`) and sleep. -/
def applyCleanupStart (h t : Nat) (st : MgmemState) : MgmemState :=
  match lookupMgmem h st with
  | none => st
  | some s =>
      if 0 < s.refcnt then
        { st with
          slots := st.slots.eraseP (fun x => x.handle == h)
          detached := ({ s with wait_task := some t }, s.wait_task) :: st.detached }
      else
        { st with
          slots := st.slots.eraseP (fun x => x.handle == h)
          freed := h :: st.freed }

/-- The tail of `__strom_clenup_mapped_gpu_memory` after the wake-up:
free the page table and the entry, and wake the saved former waiter.
Enabled once the final `put` has both driven `refcnt` to 0 and cleared
`wait_task`. -/
def applyCleanupFinish (h : Nat) (st : MgmemState) : MgmemState :=
  match st.detached.find? (fun p => p.1.handle == h) with
  | none => st
  | some pr =>
      if pr.1.refcnt = 0 ∧ pr.1.wait_task = none then
        { st with
          detached := st.detached.eraseP (fun p => p.1.handle == h)
          freed := h :: st.freed
          wakes := pr.2.toList ++ st.wakes }
      else
        st

/-- One atomic step of the mapped-memory registry. -/
def applyOp (op : MgOp) (st : MgmemState) : MgmemState :=
  match op with
  | .map h =>
      if st.allSegs.all (fun s => s.handle != h) then
        { st with slots := { handle := h, refcnt := 0, wait_task := none } :: st.slots }
      else
        st
  | .get h =>
      match lookupMgmem h st with
      | none => st
      | some s => replaceSeg h { s with refcnt := s.refcnt + 1 } st
  | .put h => applyPut h st
  | .cleanupStart h t => applyCleanupStart h t st
  | .cleanupFinish h => applyCleanupFinish h st

/-- States reachable from the empty registry by any interleaving of
map / get / put / teardown critical sections. -/
inductive MgReachable : MgmemState → Prop where
  | init : MgReachable initMgmem
  | step (op : MgOp) {st : MgmemState} :
      MgReachable st → MgReachable (applyOp op st)

/-! ### Registry helper lemmas -/

theorem allSegs_replaceSeg (h : Nat) (s' : MSeg) (st : MgmemState) :
    (replaceSeg h s' st).allSegs
      = st.allSegs.map (fun x => if x.handle == h then s' else x) := by
  unfold MgmemState.allSegs replaceSeg
  simp only [List.map_append, List.map_map]
  congr 1
  apply List.map_congr_left
  intro p _
  by_cases hc : p.1.handle = h <;> simp [hc]

theorem find?_map_pres {α : Type} {f : α → α} {p : α → Bool}
    (hp : ∀ x, p (f x) = p x) (hid : ∀ x, p x = true → f x = x) :
    ∀ l : List α, (l.map f).find? p = l.find? p
  | [] => rfl
  | a :: l => by
      by_cases ha : p a = true
      · rw [List.map_cons, List.find?_cons_of_pos _ (by rw [hp]; exact ha),
          List.find?_cons_of_pos _ ha, hid a ha]
      · rw [List.map_cons, List.find?_cons_of_neg _ (by rw [hp]; exact ha),
          List.find?_cons_of_neg _ ha, find?_map_pres hp hid l]

theorem find?_map_repl {α : Type} {f : α → α} {p : α → Bool} {s' : α}
    (hp : ∀ x, p (f x) = p x) (hconst : ∀ x, p x = true → f x = s') :
    ∀ l : List α, (l.map f).find? p = (l.find? p).map (fun _ => s')
  | [] => rfl
  | a :: l => by
      by_cases ha : p a = true
      · rw [List.map_cons, List.find?_cons_of_pos _ (by rw [hp]; exact ha),
          List.find?_cons_of_pos _ ha, hconst a ha]
        rfl
      · rw [List.map_cons, List.find?_cons_of_neg _ (by rw [hp]; exact ha),
          List.find?_cons_of_neg _ ha, find?_map_repl hp hconst l]

theorem findSegAll_replaceSeg_self (h : Nat) (s' : MSeg) (hs' : s'.handle = h)
    (st : MgmemState) :
    findSegAll h (replaceSeg h s' st) = (findSegAll h st).map (fun _ => s') := by
  rw [findSegAll, allSegs_replaceSeg, findSegAll]
  apply find?_map_repl
  · intro x
    by_cases hc : x.handle = h <;> simp [hc, hs']
  · intro x hx
    have hc : x.handle = h := beq_iff_eq.mp hx
    simp [hc]

theorem findSegAll_replaceSeg_ne (h h' : Nat) (s' : MSeg) (hs' : s'.handle = h)
    (hne : h' ≠ h) (st : MgmemState) :
    findSegAll h' (replaceSeg h s' st) = findSegAll h' st := by
  rw [findSegAll, allSegs_replaceSeg, findSegAll]
  apply find?_map_pres
  · intro x
    have hne' : h ≠ h' := Ne.symm hne
    by_cases hc : x.handle = h <;> simp [hc, hs', hne']
  · intro x hx
    have hxh : x.handle = h' := beq_iff_eq.mp hx
    simp [hxh, hne]

theorem mem_allSegs_replaceSeg {y : MSeg} {h : Nat} {s' : MSeg} {st : MgmemState}
    (hy : y ∈ (replaceSeg h s' st).allSegs) : y = s' ∨ y ∈ st.allSegs := by
  rw [allSegs_replaceSeg] at hy
  rcases List.mem_map.mp hy with ⟨x, hx, rfl⟩
  by_cases hc : x.handle = h
  · simp [hc]
  · simp [hc, hx]

theorem handles_replaceSeg (h : Nat) (s' : MSeg) (hs' : s'.handle = h)
    (st : MgmemState) :
    (replaceSeg h s' st).allSegs.map MSeg.handle = st.allSegs.map MSeg.handle := by
  rw [allSegs_replaceSeg, List.map_map]
  apply List.map_congr_left
  intro x _
  by_cases hc : x.handle = h <;> simp [hc, hs']

theorem allSegs_of_wakes (st : MgmemState) (w : List Nat) :
    ({ st with wakes := w } : MgmemState).allSegs = st.allSegs := rfl

/-- A key that is absent from a list's keys is not found. -/
theorem find?_key_none_of_not_mem {α : Type} {key : α → Nat} {h : Nat} {l : List α}
    (hmem : h ∉ l.map key) : l.find? (fun x => key x == h) = none := by
  cases hf : l.find? (fun x => key x == h) with
  | none => rfl
  | some s =>
      exfalso
      have hps := List.find?_some hf
      have hkey : key s = h := beq_iff_eq.mp hps
      exact hmem (hkey ▸ List.mem_map_of_mem key (List.mem_of_find?_eq_some hf))

/-- Conversely, a failed search means the key is absent. -/
theorem not_mem_map_key_of_find?_none {α : Type} {key : α → Nat} {h : Nat} {l : List α}
    (hf : l.find? (fun x => key x == h) = none) : h ∉ l.map key := by
  intro hmem
  obtain ⟨x, hx, hxk⟩ := List.mem_map.mp hmem
  have := @List.find?_isSome _ l (fun x => key x == h)
  rw [hf] at this
  exact absurd (this.mpr ⟨x, hx, by simp [hxk]⟩) (by simp)

/-- After erasing the (first, hence by key-uniqueness only) entry with a
given key, no entry with that key remains. -/
theorem find?_key_eraseP_none {α : Type} (key : α → Nat) (h : Nat) (l : List α)
    (hnd : (l.map key).Nodup) :
    (l.eraseP (fun x => key x == h)).find? (fun x => key x == h) = none := by
  cases hf : l.find? (fun x => key x == h) with
  | none =>
      have hno : ∀ a ∈ l, ¬ (key a == h) = true := by
        intro a ha hpa
        have := @List.find?_isSome _ l (fun x => key x == h)
        rw [hf] at this
        exact absurd (this.mpr ⟨a, ha, hpa⟩) (by simp)
      rw [List.eraseP_of_forall_not hno]
      exact hf
  | some s =>
      obtain ⟨a, l₁, l₂, hl₁, hpa, hl, herase⟩ :=
        List.exists_of_eraseP (List.mem_of_find?_eq_some hf) (List.find?_some hf)
      rw [herase]
      cases hf2 : (l₁ ++ l₂).find? (fun x => key x == h) with
      | none => rfl
      | some b =>
          exfalso
          have hb := List.mem_of_find?_eq_some hf2
          have hpb := List.find?_some hf2
          have hbh : key b = h := beq_iff_eq.mp hpb
          have hah : key a = h := beq_iff_eq.mp hpa
          rcases List.mem_append.mp hb with hb1 | hb2
          · exact hl₁ b hb1 (by simp [hbh])
          · -- a duplicate key h in l₂ contradicts nodup of l's keys
            rw [hl] at hnd
            simp only [List.map_append, List.map_cons] at hnd
            rcases List.nodup_append.mp hnd with ⟨-, hnd2, -⟩
            exact (List.nodup_cons.mp hnd2).1 (hah ▸ hbh ▸ List.mem_map_of_mem key hb2)

/-! ### The registry invariant: non-negative refcounts and unique handles -/

def MgInv (st : MgmemState) : Prop :=
  (∀ seg ∈ st.allSegs, 0 ≤ seg.refcnt) ∧ (st.allSegs.map MSeg.handle).Nodup

theorem mgInv_init : MgInv initMgmem := by
  constructor <;> simp [initMgmem, MgmemState.allSegs]

theorem allSegs_mk (sl : List MSeg) (d : List (MSeg × Option Nat)) (f w : List Nat) :
    (MgmemState.mk sl d f w).allSegs = sl ++ d.map Prod.fst := rfl

theorem mgInv_step (op : MgOp) (st : MgmemState) (hinv : MgInv st) :
    MgInv (applyOp op st) := by
  obtain ⟨hnn, hnd⟩ := hinv
  cases op with
  | map h =>
      simp only [applyOp]
      by_cases hall : st.allSegs.all (fun s => s.handle != h)
      · rw [if_pos hall]
        have hcons :
            ({ st with slots := { handle := h, refcnt := 0, wait_task := none } :: st.slots } :
              MgmemState).allSegs
            = { handle := h, refcnt := 0, wait_task := none } :: st.allSegs := by
          simp [MgmemState.allSegs]
        constructor
        · intro seg hseg
          rw [hcons] at hseg
          rcases List.mem_cons.mp hseg with rfl | hseg
          · norm_num
          · exact hnn seg hseg
        · rw [hcons, List.map_cons]
          refine List.nodup_cons.mpr ⟨?_, hnd⟩
          intro hmem
          rcases List.mem_map.mp hmem with ⟨x, hx, hxh⟩
          have hx' := List.all_eq_true.mp hall x hx
          rw [bne_iff_ne] at hx'
          exact hx' hxh
      · rw [if_neg hall]
        exact ⟨hnn, hnd⟩
  | get h =>
      simp only [applyOp]
      split
      · exact ⟨hnn, hnd⟩
      · rename_i s hlk
        have hps := List.find?_some hlk
        have hsh : s.handle = h := beq_iff_eq.mp hps
        have hmem : s ∈ st.allSegs :=
          List.mem_append_left _ (List.mem_of_find?_eq_some hlk)
        constructor
        · intro seg hseg
          rcases mem_allSegs_replaceSeg hseg with rfl | hseg
          · have h0 := hnn s hmem
            show (0 : Int) ≤ s.refcnt + 1
            omega
          · exact hnn seg hseg
        · rw [handles_replaceSeg h { s with refcnt := s.refcnt + 1 } hsh st]
          exact hnd
  | put h =>
      simp only [applyOp]
      unfold applyPut
      split
      · exact ⟨hnn, hnd⟩
      · rename_i s hf
        have hps := List.find?_some hf
        have hsh : s.handle = h := beq_iff_eq.mp hps
        have hmem : s ∈ st.allSegs := List.mem_of_find?_eq_some hf
        have h0 := hnn s hmem
        by_cases hge : 1 ≤ s.refcnt
        · rw [if_pos hge]
          by_cases hz : s.refcnt - 1 = 0
          · rw [if_pos hz]
            constructor
            · intro seg hseg
              rw [allSegs_of_wakes] at hseg
              rcases mem_allSegs_replaceSeg hseg with rfl | hseg
              · show (0 : Int) ≤ s.refcnt - 1
                omega
              · exact hnn seg hseg
            · rw [allSegs_of_wakes,
                handles_replaceSeg h { s with refcnt := s.refcnt - 1, wait_task := none } hsh st]
              exact hnd
          · rw [if_neg hz]
            constructor
            · intro seg hseg
              rcases mem_allSegs_replaceSeg hseg with rfl | hseg
              · show (0 : Int) ≤ s.refcnt - 1
                omega
              · exact hnn seg hseg
            · rw [handles_replaceSeg h { s with refcnt := s.refcnt - 1 } hsh st]
              exact hnd
        · rw [if_neg hge]
          exact ⟨hnn, hnd⟩
  | cleanupStart h t =>
      simp only [applyOp]
      unfold applyCleanupStart
      split
      · exact ⟨hnn, hnd⟩
      · rename_i s hlk
        have hps := List.find?_some hlk
        have hsh : s.handle = h := beq_iff_eq.mp hps
        have hmemS : s ∈ st.slots := List.mem_of_find?_eq_some hlk
        by_cases hpos : 0 < s.refcnt
        · rw [if_pos hpos]
          obtain ⟨a, l₁, l₂, hl₁, hpa, hsl, her⟩ :=
            List.exists_of_eraseP hmemS (p := fun x => x.handle == h) (by simp [hsh])
          have hah : a.handle = h := beq_iff_eq.mp hpa
          have hnew :
              ({ st with
                  slots := st.slots.eraseP (fun x => x.handle == h)
                  detached := ({ s with wait_task := some t }, s.wait_task) :: st.detached } :
                MgmemState).allSegs
              = (l₁ ++ l₂) ++ { s with wait_task := some t } :: st.detached.map Prod.fst := by
            simp [MgmemState.allSegs, her]
          have hold : st.allSegs = (l₁ ++ a :: l₂) ++ st.detached.map Prod.fst := by
            rw [MgmemState.allSegs, hsl]
          constructor
          · intro seg hseg
            rw [hnew] at hseg
            rcases List.mem_append.mp hseg with hseg | hseg
            · refine hnn seg ?_
              rw [hold]
              rcases List.mem_append.mp hseg with h1 | h2
              · exact List.mem_append_left _ (List.mem_append_left _ h1)
              · exact List.mem_append_left _
                  (List.mem_append_right _ (List.mem_cons_of_mem _ h2))
            · rcases List.mem_cons.mp hseg with rfl | hseg
              · show (0 : Int) ≤ s.refcnt
                have := hnn s (List.mem_append_left _ hmemS)
                omega
              · exact hnn seg (List.mem_append_right _ hseg)
          · rw [hnew]
            rw [hold] at hnd
            have hperm1 :
                ((l₁ ++ a :: l₂) ++ st.detached.map Prod.fst).Perm
                  (a :: ((l₁ ++ l₂) ++ st.detached.map Prod.fst)) := by
              have e1 : (l₁ ++ a :: l₂) ++ st.detached.map Prod.fst
                  = l₁ ++ a :: (l₂ ++ st.detached.map Prod.fst) := by
                simp [List.append_assoc]
              have e2 : (l₁ ++ l₂) ++ st.detached.map Prod.fst
                  = l₁ ++ (l₂ ++ st.detached.map Prod.fst) := List.append_assoc l₁ l₂ _
              rw [e1, e2]
              exact List.perm_middle
            have hperm2 :
                ((l₁ ++ l₂) ++ { s with wait_task := some t } :: st.detached.map Prod.fst).Perm
                  ({ s with wait_task := some t } :: ((l₁ ++ l₂) ++ st.detached.map Prod.fst)) :=
              List.perm_middle
            have hnd1 := (hperm1.map MSeg.handle).nodup hnd
            have heq : ({ s with wait_task := some t } : MSeg).handle = a.handle := by
              rw [hsh, hah]
            refine ((hperm2.map MSeg.handle).symm).nodup ?_
            rw [List.map_cons] at hnd1 ⊢
            rw [heq]
            exact hnd1
        · rw [if_neg hpos]
          have hsub :
              (st.slots.eraseP (fun x => x.handle == h) ++ st.detached.map Prod.fst).Sublist
                st.allSegs :=
            List.Sublist.append (List.eraseP_sublist _) (List.Sublist.refl _)
          constructor
          · intro seg hseg
            refine hnn seg (hsub.subset ?_)
            simpa [MgmemState.allSegs] using hseg
          · have := (hsub.map MSeg.handle)
            refine this.nodup ?_
            exact hnd
        -- note: the `freed` update does not affect allSegs
  | cleanupFinish h =>
      simp only [applyOp]
      unfold applyCleanupFinish
      split
      · exact ⟨hnn, hnd⟩
      · rename_i pr hdf
        by_cases hg : pr.1.refcnt = 0 ∧ pr.1.wait_task = none
        · rw [if_pos hg]
          have hsub :
              (st.slots ++ (st.detached.eraseP (fun p => p.1.handle == h)).map Prod.fst).Sublist
                st.allSegs :=
            List.Sublist.append (List.Sublist.refl _)
              ((List.eraseP_sublist _).map Prod.fst)
          constructor
          · intro seg hseg
            refine hnn seg (hsub.subset ?_)
            simpa [MgmemState.allSegs] using hseg
          · exact (hsub.map MSeg.handle).nodup hnd
        · rw [if_neg hg]
          exact ⟨hnn, hnd⟩

theorem mgInv_of_reachable {st : MgmemState} (hr : MgReachable st) : MgInv st := by
  induction hr with
  | init => exact mgInv_init
  | step op _ ih => exact mgInv_step op _ ih

theorem slots_replaceSeg (h : Nat) (s' : MSeg) (st : MgmemState) :
    (replaceSeg h s' st).slots
      = st.slots.map (fun x => if x.handle == h then s' else x) := rfl

theorem slotHandles_replaceSeg (h : Nat) (s' : MSeg) (hs' : s'.handle = h)
    (st : MgmemState) :
    slotHandles (replaceSeg h s' st) = slotHandles st := by
  unfold slotHandles
  rw [slots_replaceSeg, List.map_map]
  apply List.map_congr_left
  intro x _
  by_cases hc : x.handle = h <;> simp [hc, hs']

theorem slotHandles_nodup_of_inv {st : MgmemState}
    (hnd : (st.allSegs.map MSeg.handle).Nodup) :
    (st.slots.map MSeg.handle).Nodup := by
  have he : st.allSegs.map MSeg.handle
      = st.slots.map MSeg.handle ++ (st.detached.map Prod.fst).map MSeg.handle := by
    simp [MgmemState.allSegs]
  rw [he] at hnd
  exact hnd.of_append_left

/-- C6: for all sequences of map/unmap operations the registry contains
exactly the set of currently-mapped handles: lookup succeeds exactly for
handles in the slot chains, the teardown (`__strom_clenup_mapped_gpu_memory`,
reached from both the unmap ioctl and the revocation callback) unlinks
the entry before any waiting begins — so immediately after that step no
lookup of the handle can find the entry — and no step other than a
successful map of that very handle ever adds a handle to the registry. -/
theorem strom_registry_contains_exactly_mapped
    (st : MgmemState) (h t h' : Nat) (op : MgOp)
    (hr : MgReachable st) :
    (lookupMgmem h st ≠ none ↔ h ∈ slotHandles st)
    ∧ (h ∈ slotHandles st → lookupMgmem h (applyOp (.cleanupStart h t) st) = none)
    ∧ (h' ∈ slotHandles (applyOp op st) → h' ∈ slotHandles st ∨ op = .map h') := by
  obtain ⟨hnn, hnd⟩ := mgInv_of_reachable hr
  have hndSlots : (st.slots.map MSeg.handle).Nodup := slotHandles_nodup_of_inv hnd
  refine ⟨?_, ?_, ?_⟩
  · constructor
    · intro hne
      cases hlk : lookupMgmem h st with
      | none => exact absurd hlk hne
      | some s =>
          have hps := List.find?_some hlk
          have hsh : s.handle = h := beq_iff_eq.mp hps
          exact hsh ▸ List.mem_map_of_mem MSeg.handle (List.mem_of_find?_eq_some hlk)
    · intro hmem hlk
      exact (not_mem_map_key_of_find?_none hlk) hmem
  · intro hmem
    simp only [applyOp]
    unfold applyCleanupStart
    split
    · rename_i hlk
      exact absurd hmem (not_mem_map_key_of_find?_none hlk)
    · rename_i s hlk
      by_cases hpos : 0 < s.refcnt
      · rw [if_pos hpos]
        show (st.slots.eraseP (fun x => x.handle == h)).find? (fun x => x.handle == h) = none
        exact find?_key_eraseP_none MSeg.handle h st.slots hndSlots
      · rw [if_neg hpos]
        show (st.slots.eraseP (fun x => x.handle == h)).find? (fun x => x.handle == h) = none
        exact find?_key_eraseP_none MSeg.handle h st.slots hndSlots
  · intro hmem
    cases op with
    | map h0 =>
        simp only [applyOp] at hmem
        by_cases hall : st.allSegs.all (fun s => s.handle != h0)
        · rw [if_pos hall] at hmem
          have he : slotHandles
              ({ st with slots := { handle := h0, refcnt := 0, wait_task := none } :: st.slots } :
                MgmemState)
              = h0 :: slotHandles st := by
            simp [slotHandles]
          rw [he] at hmem
          rcases List.mem_cons.mp hmem with rfl | hmem
          · right; rfl
          · left; exact hmem
        · rw [if_neg hall] at hmem
          left; exact hmem
    | get h0 =>
        simp only [applyOp] at hmem
        split at hmem
        · left; exact hmem
        · rename_i s hlk
          have hps := List.find?_some hlk
          have hsh : s.handle = h0 := beq_iff_eq.mp hps
          rw [slotHandles_replaceSeg h0 { s with refcnt := s.refcnt + 1 } hsh st] at hmem
          left; exact hmem
    | put h0 =>
        simp only [applyOp] at hmem
        unfold applyPut at hmem
        split at hmem
        · left; exact hmem
        · rename_i s hf
          have hps := List.find?_some hf
          have hsh : s.handle = h0 := beq_iff_eq.mp hps
          by_cases hge : 1 ≤ s.refcnt
          · rw [if_pos hge] at hmem
            by_cases hz : s.refcnt - 1 = 0
            · rw [if_pos hz] at hmem
              have hws : slotHandles
                  ({ replaceSeg h0 { s with refcnt := s.refcnt - 1, wait_task := none } st with
                      wakes := s.wait_task.toList ++ st.wakes } : MgmemState)
                  = slotHandles
                      (replaceSeg h0 { s with refcnt := s.refcnt - 1, wait_task := none } st) :=
                rfl
              rw [hws,
                slotHandles_replaceSeg h0 { s with refcnt := s.refcnt - 1, wait_task := none }
                  hsh st] at hmem
              left; exact hmem
            · rw [if_neg hz] at hmem
              rw [slotHandles_replaceSeg h0 { s with refcnt := s.refcnt - 1 } hsh st] at hmem
              left; exact hmem
          · rw [if_neg hge] at hmem
            left; exact hmem
    | cleanupStart h0 t0 =>
        simp only [applyOp] at hmem
        unfold applyCleanupStart at hmem
        split at hmem
        · left; exact hmem
        · rename_i s hlk
          by_cases hpos : 0 < s.refcnt
          · rw [if_pos hpos] at hmem
            left
            exact ((List.eraseP_sublist st.slots).map MSeg.handle).subset hmem
          · rw [if_neg hpos] at hmem
            left
            exact ((List.eraseP_sublist st.slots).map MSeg.handle).subset hmem
    | cleanupFinish h0 =>
        simp only [applyOp] at hmem
        unfold applyCleanupFinish at hmem
        split at hmem
        · left; exact hmem
        · rename_i pr hdf
          by_cases hg : pr.1.refcnt = 0 ∧ pr.1.wait_task = none
          · rw [if_pos hg] at hmem
            left; exact hmem
          · rw [if_neg hg] at hmem
            left; exact hmem

theorem freed_replaceSeg (h : Nat) (s' : MSeg) (st : MgmemState) :
    (replaceSeg h s' st).freed = st.freed := rfl

theorem freed_of_wakes (st : MgmemState) (w : List Nat) :
    ({ st with wakes := w } : MgmemState).freed = st.freed := rfl

theorem handles_append_shape (st : MgmemState) :
    st.allSegs.map MSeg.handle
      = st.slots.map MSeg.handle ++ (st.detached.map Prod.fst).map MSeg.handle := by
  simp [MgmemState.allSegs]

theorem handles_disjoint_of_inv {st : MgmemState}
    (hnd : (st.allSegs.map MSeg.handle).Nodup) :
    ∀ a ∈ st.slots.map MSeg.handle, a ∉ (st.detached.map Prod.fst).map MSeg.handle := by
  rw [handles_append_shape] at hnd
  exact fun a ha hb => (List.nodup_append.mp hnd).2.2 ha hb

theorem detachedHandles_nodup_of_inv {st : MgmemState}
    (hnd : (st.allSegs.map MSeg.handle).Nodup) :
    ((st.detached.map Prod.fst).map MSeg.handle).Nodup := by
  rw [handles_append_shape] at hnd
  exact (List.nodup_append.mp hnd).2.1

/-- C5: for every mapped segment and every interleaving of
acquire/release/unmap/revocation critical sections, the refcount is never
negative, and whenever a step releases a segment's page-table pin and
frees it (appends its handle to the `freed` log), the segment had
refcount zero at that moment and is no longer linked (neither in the slot
chains nor among detached entries) once the step completes — teardown
unlinks before it frees. -/
theorem strom_refcnt_nonneg_and_free_safe
    (st : MgmemState) (seg : MSeg) (op : MgOp) (h : Nat)
    (hr : MgReachable st)
    (hseg : seg ∈ st.allSegs)
    (hfree : (applyOp op st).freed = h :: st.freed) :
    0 ≤ seg.refcnt
    ∧ (findSegAll h st).map MSeg.refcnt = some 0
    ∧ h ∉ slotHandles (applyOp op st)
    ∧ h ∉ detachedHandles (applyOp op st) := by
  obtain ⟨hnn, hnd⟩ := mgInv_of_reachable hr
  have hndSlots := slotHandles_nodup_of_inv hnd
  have habs : st.freed = h :: st.freed → False := fun he =>
    (List.cons_ne_self h st.freed) he.symm
  refine ⟨hnn seg hseg, ?_⟩
  cases op with
  | map h0 =>
      simp only [applyOp] at hfree
      by_cases hall : st.allSegs.all (fun s => s.handle != h0)
      · rw [if_pos hall] at hfree
        exact (habs hfree).elim
      · rw [if_neg hall] at hfree
        exact (habs hfree).elim
  | get h0 =>
      simp only [applyOp] at hfree
      split at hfree
      · exact (habs hfree).elim
      · rw [freed_replaceSeg] at hfree
        exact (habs hfree).elim
  | put h0 =>
      simp only [applyOp] at hfree
      unfold applyPut at hfree
      split at hfree
      · exact (habs hfree).elim
      · rename_i s hf
        by_cases hge : 1 ≤ s.refcnt
        · rw [if_pos hge] at hfree
          by_cases hz : s.refcnt - 1 = 0
          · rw [if_pos hz, freed_of_wakes, freed_replaceSeg] at hfree
            exact (habs hfree).elim
          · rw [if_neg hz, freed_replaceSeg] at hfree
            exact (habs hfree).elim
        · rw [if_neg hge] at hfree
          exact (habs hfree).elim
  | cleanupStart h0 t0 =>
      simp only [applyOp] at hfree ⊢
      unfold applyCleanupStart at hfree ⊢
      split at hfree
      · exact (habs hfree).elim
      · rename_i s hlk
        by_cases hpos : 0 < s.refcnt
        · rw [if_pos hpos] at hfree
          exact (habs hfree).elim
        · rw [if_neg hpos] at hfree
          have hh : h0 = h := by
            have : h0 :: st.freed = h :: st.freed := hfree
            exact (List.cons.injEq _ _ _ _).mp this |>.1
          subst hh
          have hps := List.find?_some hlk
          have hsh : s.handle = h0 := beq_iff_eq.mp hps
          have hmemS : s ∈ st.slots := List.mem_of_find?_eq_some hlk
          have hrc : s.refcnt = 0 := by
            have := hnn s (List.mem_append_left _ hmemS)
            omega
          have hfindAll : findSegAll h0 st = some s := by
            unfold findSegAll MgmemState.allSegs
            rw [List.find?_append]
            have hlk' : st.slots.find? (fun x => x.handle == h0) = some s := hlk
            rw [hlk', Option.or_some]
          refine ⟨?_, ?_, ?_⟩
          · rw [hfindAll]
            simp [hrc]
          · rw [if_neg hpos]
            exact not_mem_map_key_of_find?_none
              (find?_key_eraseP_none MSeg.handle h0 st.slots hndSlots)
          · rw [if_neg hpos]
            -- detached unchanged; h0 sits in the slots, so by handle
            -- uniqueness it is not among the detached handles
            have hmemH : h0 ∈ st.slots.map MSeg.handle :=
              hsh ▸ List.mem_map_of_mem MSeg.handle hmemS
            exact handles_disjoint_of_inv hnd h0 hmemH
  | cleanupFinish h0 =>
      simp only [applyOp] at hfree ⊢
      unfold applyCleanupFinish at hfree ⊢
      split at hfree
      · exact (habs hfree).elim
      · rename_i pr hdf
        by_cases hg : pr.1.refcnt = 0 ∧ pr.1.wait_task = none
        · rw [if_pos hg] at hfree
          have hh : h0 = h := by
            have : h0 :: st.freed = h :: st.freed := hfree
            exact (List.cons.injEq _ _ _ _).mp this |>.1
          subst hh
          have hps := List.find?_some hdf
          have hsh : pr.1.handle = h0 := beq_iff_eq.mp hps
          have hmemD : pr ∈ st.detached := List.mem_of_find?_eq_some hdf
          have hmemH : h0 ∈ (st.detached.map Prod.fst).map MSeg.handle :=
            hsh ▸ List.mem_map_of_mem MSeg.handle (List.mem_map_of_mem Prod.fst hmemD)
          have hnotSlots : h0 ∉ st.slots.map MSeg.handle := by
            intro hin
            exact handles_disjoint_of_inv hnd h0 hin hmemH
          have hfindSlots : st.slots.find? (fun x => x.handle == h0) = none :=
            find?_key_none_of_not_mem hnotSlots
          refine ⟨?_, ?_, ?_⟩
          · have hfindAll : findSegAll h0 st = some pr.1 := by
              unfold findSegAll MgmemState.allSegs
              rw [List.find?_append, hfindSlots]
              have hmap := List.find?_map (p := fun x => x.handle == h0) Prod.fst st.detached
              rw [hmap]
              have hdf' : st.detached.find? ((fun x => x.handle == h0) ∘ Prod.fst) = some pr := hdf
              rw [hdf']
              rfl
            rw [hfindAll]
            simp [hg.1]
          · rw [if_pos hg]
            exact hnotSlots
          · rw [if_pos hg]
            -- after erasing, no detached entry with handle h0 remains
            have hkey := find?_key_eraseP_none (fun q => q.1.handle) h0 st.detached
              (by simpa [List.map_map, Function.comp] using detachedHandles_nodup_of_inv hnd)
            have hnone :
                (st.detached.eraseP (fun q => q.1.handle == h0)).find?
                    (fun q => q.1.handle == h0) = none := hkey
            intro hin
            -- hin : h0 ∈ detachedHandles of the erased state
            have hin' : h0 ∈ (st.detached.eraseP (fun q => q.1.handle == h0)).map
                (fun q => q.1.handle) := by
              simpa [detachedHandles, List.map_map, Function.comp] using hin
            exact (not_mem_map_key_of_find?_none hnone) hin'
        · rw [if_neg hg] at hfree
          exact (habs hfree).elim

/-! ### C7 infrastructure: the refcount of a handle, and which steps can
change it -/

theorem findSegAll_of_wakes (h : Nat) (st : MgmemState) (w : List Nat) :
    findSegAll h ({ st with wakes := w } : MgmemState) = findSegAll h st := rfl

/-- The refcount of the (unique, by the registry invariant) live segment
with the given handle, `0` if there is none. -/
def refcntOf (h : Nat) (st : MgmemState) : Int :=
  ((findSegAll h st).map MSeg.refcnt).getD 0

theorem find?_skip_insert {α : Type} (p : α → Bool) (l₁ l₂ l₃ : List α) (a b : α)
    (hpa : ¬ p a = true) (hpb : ¬ p b = true) :
    ((l₁ ++ l₂) ++ b :: l₃).find? p = ((l₁ ++ a :: l₂) ++ l₃).find? p := by
  rw [List.find?_append, List.find?_append, List.find?_append, List.find?_append,
    List.find?_cons_of_neg _ hpb, List.find?_cons_of_neg _ hpa]

theorem find?_skip_erase {α : Type} (p : α → Bool) (l₁ l₂ l₃ : List α) (a : α)
    (hpa : ¬ p a = true) :
    ((l₁ ++ l₂) ++ l₃).find? p = ((l₁ ++ a :: l₂) ++ l₃).find? p := by
  rw [List.find?_append, List.find?_append, List.find?_append, List.find?_append,
    List.find?_cons_of_neg _ hpa]

theorem find?_skip_erase_right {α : Type} (p : α → Bool) (l₀ l₁ l₂ : List α) (a : α)
    (hpa : ¬ p a = true) :
    (l₀ ++ (l₁ ++ l₂)).find? p = (l₀ ++ (l₁ ++ a :: l₂)).find? p := by
  rw [List.find?_append, List.find?_append, List.find?_append, List.find?_append,
    List.find?_cons_of_neg _ hpa]

/-- A teardown of a different handle leaves the search for `h` untouched. -/
theorem findSegAll_cleanupStart_ne (st : MgmemState) (h0 t0 h : Nat) (hne : h ≠ h0) :
    findSegAll h (applyCleanupStart h0 t0 st) = findSegAll h st := by
  unfold applyCleanupStart
  split
  · rfl
  · rename_i s hlk
    have hps := List.find?_some hlk
    have hsh : s.handle = h0 := beq_iff_eq.mp hps
    have hmemS : s ∈ st.slots := List.mem_of_find?_eq_some hlk
    obtain ⟨a, l₁, l₂, hl₁, hpa, hsl, her⟩ :=
      List.exists_of_eraseP hmemS (p := fun x => x.handle == h0) (by simp [hsh])
    have hah : a.handle = h0 := beq_iff_eq.mp hpa
    have hne' : h0 ≠ h := Ne.symm hne
    have hbeqa : ¬ (a.handle == h) = true := by simp [hah, hne']
    by_cases hpos : 0 < s.refcnt
    · rw [if_pos hpos]
      have hbeqs : ¬ (({ s with wait_task := some t0 } : MSeg).handle == h) = true := by
        simp [hsh, hne']
      unfold findSegAll MgmemState.allSegs
      rw [her, hsl]
      simp only [List.map_cons]
      exact find?_skip_insert _ l₁ l₂ (st.detached.map Prod.fst) a _ hbeqa hbeqs
    · rw [if_neg hpos]
      unfold findSegAll MgmemState.allSegs
      rw [her, hsl]
      exact find?_skip_erase _ l₁ l₂ (st.detached.map Prod.fst) a hbeqa

/-- Finishing a teardown of a different handle leaves the search for `h`
untouched. -/
theorem findSegAll_cleanupFinish_ne (st : MgmemState) (h0 h : Nat) (hne : h ≠ h0) :
    findSegAll h (applyCleanupFinish h0 st) = findSegAll h st := by
  unfold applyCleanupFinish
  split
  · rfl
  · rename_i pr hdf
    have hps := List.find?_some hdf
    have hsh : pr.1.handle = h0 := beq_iff_eq.mp hps
    have hmemD : pr ∈ st.detached := List.mem_of_find?_eq_some hdf
    by_cases hg : pr.1.refcnt = 0 ∧ pr.1.wait_task = none
    · rw [if_pos hg]
      obtain ⟨a, d₁, d₂, hd₁, hqa, hdl, her⟩ :=
        List.exists_of_eraseP hmemD (p := fun q => q.1.handle == h0) (by simp [hsh])
      have hah : a.1.handle = h0 := beq_iff_eq.mp hqa
      have hne' : h0 ≠ h := Ne.symm hne
      have hbeqa : ¬ (a.1.handle == h) = true := by simp [hah, hne']
      unfold findSegAll MgmemState.allSegs
      rw [her, hdl]
      simp only [List.map_append, List.map_cons]
      exact find?_skip_erase_right _ st.slots (d₁.map Prod.fst) (d₂.map Prod.fst) a.1 hbeqa
    · rw [if_neg hg]

/-- C7: `__strom_put_mapped_gpu_memory` (release) is the only step that
can decrement a segment's refcount, and when a release takes the refcount
from 1 to 0 while a teardown waiter is registered, it wakes exactly that
waiter and clears the waiter slot. -/
theorem strom_put_only_decrements_and_wakes_exactly
    (st : MgmemState) (op : MgOp) (h t : Nat) (seg : MSeg)
    (hr : MgReachable st)
    (hdec : refcntOf h (applyOp op st) < refcntOf h st)
    (hfind : findSegAll h st = some seg)
    (h1 : seg.refcnt = 1)
    (hw : seg.wait_task = some t) :
    op = MgOp.put h
    ∧ (applyOp (.put h) st).wakes = t :: st.wakes
    ∧ findSegAll h (applyOp (.put h) st)
        = some { handle := seg.handle, refcnt := 0, wait_task := none } := by
  obtain ⟨hnn, hnd⟩ := mgInv_of_reachable hr
  have hndSlots := slotHandles_nodup_of_inv hnd
  have hps := List.find?_some hfind
  have hsh : seg.handle = h := beq_iff_eq.mp hps
  -- the wake/clear behaviour of the release itself
  have hput : (applyOp (.put h) st).wakes = t :: st.wakes
      ∧ findSegAll h (applyOp (.put h) st)
          = some { handle := seg.handle, refcnt := 0, wait_task := none } := by
    simp only [applyOp]
    unfold applyPut
    split
    · rename_i hf₂
      rw [hfind] at hf₂
      exact (Option.noConfusion hf₂)
    · rename_i s₂ hf₂
      rw [hfind] at hf₂
      obtain rfl : seg = s₂ := Option.some.inj hf₂
      have hge : 1 ≤ seg.refcnt := by omega
      have hz : seg.refcnt - 1 = 0 := by omega
      rw [if_pos hge, if_pos hz]
      constructor
      · show seg.wait_task.toList ++ st.wakes = t :: st.wakes
        rw [hw]
        rfl
      · rw [findSegAll_of_wakes,
          findSegAll_replaceSeg_self h { seg with refcnt := seg.refcnt - 1, wait_task := none }
            hsh st, hfind]
        simp [h1]
  refine ⟨?_, hput.1, hput.2⟩
  -- only a put of this very handle can decrease its refcount
  cases op with
  | map h0 =>
      exfalso
      unfold refcntOf at hdec
      simp only [applyOp] at hdec
      by_cases hall : st.allSegs.all (fun s => s.handle != h0)
      · rw [if_pos hall] at hdec
        by_cases hEq : h0 = h
        · subst hEq
          have hmem : seg ∈ st.allSegs := List.mem_of_find?_eq_some hfind
          have := List.all_eq_true.mp hall seg hmem
          rw [bne_iff_ne] at this
          exact this hsh
        · have hcons : findSegAll h
              ({ st with slots := { handle := h0, refcnt := 0, wait_task := none } :: st.slots } :
                MgmemState) = findSegAll h st := by
            unfold findSegAll MgmemState.allSegs
            show List.find? _ (({ handle := h0, refcnt := 0, wait_task := none } : MSeg)
              :: (st.slots ++ st.detached.map Prod.fst)) = _
            rw [List.find?_cons_of_neg]
            simp [hEq]
          rw [hcons] at hdec
          exact absurd hdec (lt_irrefl _)
      · rw [if_neg hall] at hdec
        exact absurd hdec (lt_irrefl _)
  | get h0 =>
      exfalso
      unfold refcntOf at hdec
      simp only [applyOp] at hdec
      split at hdec
      · exact absurd hdec (lt_irrefl _)
      · rename_i s hlk
        have hps₂ := List.find?_some hlk
        have hsh₂ : s.handle = h0 := beq_iff_eq.mp hps₂
        have hfa : findSegAll h0 st = some s := by
          unfold findSegAll MgmemState.allSegs
          rw [List.find?_append]
          have hlk' : st.slots.find? (fun x => x.handle == h0) = some s := hlk
          rw [hlk', Option.or_some]
        by_cases hEq : h0 = h
        · subst hEq
          rw [findSegAll_replaceSeg_self h0 { s with refcnt := s.refcnt + 1 } hsh₂ st,
            hfa] at hdec
          simp at hdec
        · rw [findSegAll_replaceSeg_ne h0 h { s with refcnt := s.refcnt + 1 } hsh₂
            (fun hh => hEq hh.symm) st] at hdec
          exact absurd hdec (lt_irrefl _)
  | put h0 =>
      by_cases hEq : h0 = h
      · rw [hEq]
      · exfalso
        unfold refcntOf at hdec
        simp only [applyOp] at hdec
        unfold applyPut at hdec
        split at hdec
        · exact absurd hdec (lt_irrefl _)
        · rename_i s hf₂
          have hps₂ := List.find?_some hf₂
          have hsh₂ : s.handle = h0 := beq_iff_eq.mp hps₂
          have hne' : h ≠ h0 := fun hh => hEq hh.symm
          by_cases hge : 1 ≤ s.refcnt
          · rw [if_pos hge] at hdec
            by_cases hz : s.refcnt - 1 = 0
            · rw [if_pos hz, findSegAll_of_wakes,
                findSegAll_replaceSeg_ne h0 h { s with refcnt := s.refcnt - 1, wait_task := none }
                  hsh₂ hne' st] at hdec
              exact absurd hdec (lt_irrefl _)
            · rw [if_neg hz,
                findSegAll_replaceSeg_ne h0 h { s with refcnt := s.refcnt - 1 }
                  hsh₂ hne' st] at hdec
              exact absurd hdec (lt_irrefl _)
          · rw [if_neg hge] at hdec
            exact absurd hdec (lt_irrefl _)
  | cleanupStart h0 t0 =>
      exfalso
      unfold refcntOf at hdec
      simp only [applyOp] at hdec
      by_cases hEq : h0 = h
      · subst hEq
        unfold applyCleanupStart at hdec
        split at hdec
        · exact absurd hdec (lt_irrefl _)
        · rename_i s hlk
          have hps₂ := List.find?_some hlk
          have hsh₂ : s.handle = h0 := beq_iff_eq.mp hps₂
          have hfa : findSegAll h0 st = some s := by
            unfold findSegAll MgmemState.allSegs
            rw [List.find?_append]
            have hlk' : st.slots.find? (fun x => x.handle == h0) = some s := hlk
            rw [hlk', Option.or_some]
          rw [hfa] at hfind
          have hseq : s = seg := Option.some.inj hfind
          have hpos : 0 < s.refcnt := by rw [hseq]; omega
          rw [if_pos hpos] at hdec
          -- the detached entry still carries the same refcount
          have hpost : findSegAll h0
              ({ st with
                  slots := st.slots.eraseP (fun x => x.handle == h0)
                  detached := ({ s with wait_task := some t0 }, s.wait_task) :: st.detached } :
                MgmemState) = some { s with wait_task := some t0 } := by
            unfold findSegAll MgmemState.allSegs
            show (st.slots.eraseP (fun x => x.handle == h0)
              ++ ({ s with wait_task := some t0 } : MSeg) :: st.detached.map Prod.fst).find? _
              = _
            rw [List.find?_append, find?_key_eraseP_none MSeg.handle h0 st.slots hndSlots,
              Option.none_or, List.find?_cons_of_pos]
            simp [hsh₂]
          rw [hpost, hfa] at hdec
          simp at hdec
      · rw [findSegAll_cleanupStart_ne st h0 t0 h (fun hh => hEq hh.symm)] at hdec
        exact absurd hdec (lt_irrefl _)
  | cleanupFinish h0 =>
      exfalso
      unfold refcntOf at hdec
      simp only [applyOp] at hdec
      by_cases hEq : h0 = h
      · subst hEq
        unfold applyCleanupFinish at hdec
        split at hdec
        · exact absurd hdec (lt_irrefl _)
        · rename_i pr hdf
          have hps₂ := List.find?_some hdf
          have hsh₂ : pr.1.handle = h0 := beq_iff_eq.mp hps₂
          by_cases hg : pr.1.refcnt = 0 ∧ pr.1.wait_task = none
          · -- the found detached entry is the unique segment with this
            -- handle, but it has refcount 0 while `seg` has refcount 1
            have hmemD : pr ∈ st.detached := List.mem_of_find?_eq_some hdf
            have hmemH : h0 ∈ (st.detached.map Prod.fst).map MSeg.handle :=
              hsh₂ ▸ List.mem_map_of_mem MSeg.handle (List.mem_map_of_mem Prod.fst hmemD)
            have hnotSlots : h0 ∉ st.slots.map MSeg.handle := by
              intro hin
              exact handles_disjoint_of_inv hnd h0 hin hmemH
            have hfa : findSegAll h0 st = some pr.1 := by
              unfold findSegAll MgmemState.allSegs
              rw [List.find?_append, find?_key_none_of_not_mem hnotSlots]
              have hmap := List.find?_map (p := fun x => x.handle == h0) Prod.fst st.detached
              rw [hmap]
              have hdf' : st.detached.find? ((fun x => x.handle == h0) ∘ Prod.fst) = some pr :=
                hdf
              rw [hdf']
              rfl
            rw [hfa] at hfind
            have : pr.1 = seg := Option.some.inj hfind
            rw [this] at hg
            omega
          · rw [if_neg hg] at hdec
            exact absurd hdec (lt_irrefl _)
      · rw [findSegAll_cleanupFinish_ne st h0 h (fun hh => hEq hh.symm)] at hdec
        exact absurd hdec (lt_irrefl _)

/-! ### Concrete reachable states for the registry theorems -/

/-- Two mapped segments, one of which has been acquired once. -/
def wstA : MgmemState :=
  applyOp (.get 5) (applyOp (.map 7) (applyOp (.map 5) initMgmem))

theorem wstA_reachable : MgReachable wstA :=
  MgReachable.step (.get 5)
    (MgReachable.step (.map 7) (MgReachable.step (.map 5) MgReachable.init))

/-- One mapped segment, acquired once, with a teardown already parked on
it waiting for the reference to drain. -/
def wstB : MgmemState :=
  applyOp (.cleanupStart 5 9) (applyOp (.get 5) (applyOp (.map 5) initMgmem))

theorem wstB_reachable : MgReachable wstB :=
  MgReachable.step (.cleanupStart 5 9)
    (MgReachable.step (.get 5) (MgReachable.step (.map 5) MgReachable.init))

/-- Instantiation of the C5 theorem: in state `wstA` the teardown of the
idle segment 7 frees it, with refcount 0 and the entry unlinked. -/
theorem strom_refcnt_nonneg_and_free_safe_witness :
    MgReachable wstA
    ∧ (⟨5, 1, none⟩ : MSeg) ∈ wstA.allSegs
    ∧ (applyOp (.cleanupStart 7 0) wstA).freed = 7 :: wstA.freed
    ∧ (0 ≤ (⟨5, 1, none⟩ : MSeg).refcnt
       ∧ (findSegAll 7 wstA).map MSeg.refcnt = some 0
       ∧ 7 ∉ slotHandles (applyOp (.cleanupStart 7 0) wstA)
       ∧ 7 ∉ detachedHandles (applyOp (.cleanupStart 7 0) wstA)) :=
  ⟨wstA_reachable, by decide, by decide,
   strom_refcnt_nonneg_and_free_safe wstA ⟨5, 1, none⟩ (.cleanupStart 7 0) 7
     wstA_reachable (by decide) (by decide)⟩

/-- Instantiation of the C6 theorem in the state with segment 5 mapped. -/
theorem strom_registry_contains_exactly_mapped_witness :
    MgReachable (applyOp (.map 5) initMgmem)
    ∧ ((lookupMgmem 5 (applyOp (.map 5) initMgmem) ≠ none
          ↔ 5 ∈ slotHandles (applyOp (.map 5) initMgmem))
       ∧ (5 ∈ slotHandles (applyOp (.map 5) initMgmem) →
            lookupMgmem 5 (applyOp (.cleanupStart 5 0) (applyOp (.map 5) initMgmem)) = none)
       ∧ (9 ∈ slotHandles (applyOp (.get 9) (applyOp (.map 5) initMgmem)) →
            9 ∈ slotHandles (applyOp (.map 5) initMgmem) ∨ MgOp.get 9 = .map 9)) :=
  ⟨MgReachable.step (.map 5) MgReachable.init,
   strom_registry_contains_exactly_mapped _ 5 0 9 (.get 9)
     (MgReachable.step (.map 5) MgReachable.init)⟩

/-- Instantiation of the C7 theorem: in state `wstB` the final release of
segment 5 is the step that drops its refcount, and it wakes exactly the
parked teardown task 9 and clears the waiter slot. -/
theorem strom_put_only_decrements_and_wakes_exactly_witness :
    MgReachable wstB
    ∧ refcntOf 5 (applyOp (.put 5) wstB) < refcntOf 5 wstB
    ∧ findSegAll 5 wstB = some ⟨5, 1, some 9⟩
    ∧ (⟨5, 1, some 9⟩ : MSeg).refcnt = 1
    ∧ (⟨5, 1, some 9⟩ : MSeg).wait_task = some 9
    ∧ (MgOp.put 5 = MgOp.put 5
       ∧ (applyOp (.put 5) wstB).wakes = 9 :: wstB.wakes
       ∧ findSegAll 5 (applyOp (.put 5) wstB) = some ⟨5, 0, none⟩) :=
  ⟨wstB_reachable, by decide, by decide, rfl, rfl,
   strom_put_only_decrements_and_wakes_exactly wstB (.put 5) 5 9 ⟨5, 1, some 9⟩
     wstB_reachable (by decide) (by decide) rfl rfl⟩

/-! ## Claim C2 (corrected): wait on an already-reaped task -/

/-- Counterexample to C2 as stated: the claim says a wait on a task id
that is no longer registered returns success to the caller, but with an
empty task registry `strom_ioctl_memcpy_ssd2gpu_wait` returns `-ENOENT`,
which is not success. -/
theorem strom_wait_not_found_counterexample :
    strom_ioctl_memcpy_ssd2gpu_wait true 42 [] = -ENOENT
    ∧ (-ENOENT : Int) ≠ 0 := by
  decide

/-- C2 (amended): for every task id that is no longer registered,
`strom_memcpy_ssd2gpu_wait` returns `-ENOENT` — classified by the code
comment as "the asynchronous task likely already completed" — and
`strom_ioctl_memcpy_ssd2gpu_wait` surfaces that `-ENOENT` to the caller
unchanged (only the synchronous copy ioctl discards it). -/
theorem strom_wait_not_found_returns_enoent
    (dma_task_id : Nat) (reg : List DmaTaskEntry)
    (hnf : reg.find? (fun d => d.dma_task_id == dma_task_id) = none) :
    strom_memcpy_ssd2gpu_wait dma_task_id reg = -ENOENT
    ∧ strom_ioctl_memcpy_ssd2gpu_wait true dma_task_id reg = -ENOENT := by
  unfold strom_ioctl_memcpy_ssd2gpu_wait strom_memcpy_ssd2gpu_wait
  rw [hnf]
  exact ⟨rfl, rfl⟩

/-- Instantiation of the amended C2 theorem at a concrete input. -/
theorem strom_wait_not_found_returns_enoent_witness :
    ([] : List DmaTaskEntry).find? (fun d => d.dma_task_id == 42) = none
    ∧ (strom_memcpy_ssd2gpu_wait 42 [] = -ENOENT
       ∧ strom_ioctl_memcpy_ssd2gpu_wait true 42 [] = -ENOENT) :=
  ⟨rfl, strom_wait_not_found_returns_enoent 42 [] rfl⟩

/-! ## Claim C3 (corrected): map offset and length arithmetic -/

/-- Counterexample to C3 as stated: mapping 256 KiB at virtual address
1000 records `map_offset = 1000` as claimed, but `map_length` is
`1000 + 262144 = 263144`, which is not rounded up to any supported
page-grid alignment (not a multiple of 64 KiB, nor even of 4 KiB). -/
theorem strom_map_length_not_aligned_counterexample :
    map_offset 1000 = 1000
    ∧ map_length 1000 262144 = 263144
    ∧ map_length 1000 262144 % 65536 ≠ 0
    ∧ map_length 1000 262144 % 4096 ≠ 0 := by
  decide

/-- C3 (amended): for every map request, the recorded `map_offset` is
`vaddress mod 65536` and the recorded `map_length` is exactly
`map_offset + length` (no rounding up to a page-grid-aligned total); the
mapped window still covers the full requested range, since the aligned
base plus `map_length` ends exactly at `vaddress + length`. -/
theorem strom_map_offset_length (vaddress length : Nat)
    (hov : map_offset vaddress + length < 2 ^ 64) :
    map_offset vaddress = vaddress % 65536
    ∧ map_length vaddress length = vaddress % 65536 + length
    ∧ map_address vaddress + map_length vaddress length = vaddress + length := by
  have hG : GPU_BOUND_SIZE = 65536 := by norm_num [GPU_BOUND_SIZE, GPU_BOUND_SHIFT]
  have h1 : map_offset vaddress = vaddress % 65536 := by
    rw [map_offset, hG]
  have h2 : map_length vaddress length = vaddress % 65536 + length := by
    rw [map_length, Nat.mod_eq_of_lt hov, h1]
  refine ⟨h1, h2, ?_⟩
  rw [map_address, hG, h2]
  have hdm := Nat.div_add_mod vaddress 65536
  omega

/-- Instantiation of the amended C3 theorem at a concrete input. -/
theorem strom_map_offset_length_witness :
    map_offset 1000 + 262144 < 2 ^ 64
    ∧ (map_offset 1000 = 1000 % 65536
       ∧ map_length 1000 262144 = 1000 % 65536 + 262144
       ∧ map_address 1000 + map_length 1000 262144 = 1000 + 262144) :=
  ⟨by decide, strom_map_offset_length 1000 262144 (by decide)⟩

/-! ## Claim C4 (code bug): DMA task cleanup leaks the pinned pages -/

/-- C4: the claim says `strom_cleanup_dma_task` deregisters the task,
releases the destination segment reference, releases all pinned source
pages, releases the file reference and wakes the waiter, each exactly
once.  Evaluating the function on a task with one pinned page shows the
divergence: the task is deregistered, the destination put, the `fput`,
the wake and the `kfree` each happen exactly once, but `pagePuts` is
empty although the task holds pinned page 11 — the function never walks
`dma_pages_list`, so the pinned source pages leak. -/
theorem strom_cleanup_dma_task_leaks_pinned_pages :
    strom_cleanup_dma_task 5
        [{ dma_task_id := 5, mgmemHandle := 7, hasFilp := true,
           wait_task := some 9, pinnedPages := [11] }]
      = ([], { mgmemPuts := [7], fputs := 1, wakes := [9], pagePuts := [], kfrees := [5] })
    ∧ ({ dma_task_id := 5, mgmemHandle := 7, hasFilp := true,
         wait_task := some 9, pinnedPages := [11] } : DmaTaskEntry).pinnedPages ≠ [] := by
  decide

/-! ## Claim C8 (confirmed): map error paths after pinning release the pin -/

/-- C8: whenever `strom_ioctl_map_gpu_memory` reaches the pinning step
(argument copy and allocation succeeded) and the pin succeeds, any
failure of the remaining steps — the unsupported-page-size
classification (`-EINVAL`) and the handle copy-out (`-EFAULT`) — returns
a negative error after releasing the pin exactly once
(`__nvidia_p2p_put_pages`) and freeing the segment structure exactly
once (`kfree`): no pin is leaked on the error path. -/
theorem strom_map_error_after_pin_releases
    (env : MapEnv) (vaddress length : Nat) (reg : List GpuSegment) (pt : P2pPageTable)
    (hcopy : env.copyOk = true) (hmal : env.kmallocOk = true)
    (hpin : env.pin = .ok pt)
    (hfail : (strom_ioctl_map_gpu_memory env vaddress length reg).rc ≠ 0) :
    (strom_ioctl_map_gpu_memory env vaddress length reg).rc < 0
    ∧ (strom_ioctl_map_gpu_memory env vaddress length reg).putPages = 1
    ∧ (strom_ioctl_map_gpu_memory env vaddress length reg).kfree = 1 := by
  cases hcl : classifyPageSize pt.pageSizeFlag with
  | none =>
      have hout : strom_ioctl_map_gpu_memory env vaddress length reg
          = { rc := -EINVAL, putPages := 1, kfree := 1, registry := reg } := by
        simp [strom_ioctl_map_gpu_memory, hcopy, hmal, hpin, hcl]
      rw [hout]
      refine ⟨by norm_num [EINVAL], rfl, rfl⟩
  | some ps =>
      by_cases hpu : env.putUserOk = true
      · have hout : strom_ioctl_map_gpu_memory env vaddress length reg
            = { rc := 0, putPages := 0, kfree := 0,
                registry :=
                  { handle := env.newHandle
                    map_address := map_address vaddress
                    map_offset := map_offset vaddress
                    map_length := map_length vaddress length
                    page_size := ps
                    page_table := pt } :: reg } := by
          simp [strom_ioctl_map_gpu_memory, hcopy, hmal, hpin, hcl, hpu]
        rw [hout] at hfail
        exact absurd rfl hfail
      · have hpu' : env.putUserOk = false := Bool.eq_false_iff.mpr hpu
        have hout : strom_ioctl_map_gpu_memory env vaddress length reg
            = { rc := -EFAULT, putPages := 1, kfree := 1, registry := reg } := by
          simp [strom_ioctl_map_gpu_memory, hcopy, hmal, hpin, hcl, hpu']
        rw [hout]
        refine ⟨by norm_num [EFAULT], rfl, rfl⟩

/-- Instantiation of the C8 theorem at a concrete input: an unsupported
page size reported after a successful pin. -/
theorem strom_map_error_after_pin_releases_witness :
    ({ copyOk := true, kmallocOk := true,
       pin := .ok { version := 1, pageSizeFlag := .other, physAddrs := [] },
       newHandle := 1, putUserOk := true } : MapEnv).copyOk = true
    ∧ ({ copyOk := true, kmallocOk := true,
         pin := .ok { version := 1, pageSizeFlag := .other, physAddrs := [] },
         newHandle := 1, putUserOk := true } : MapEnv).pin
        = .ok { version := 1, pageSizeFlag := .other, physAddrs := [] }
    ∧ ((strom_ioctl_map_gpu_memory
          { copyOk := true, kmallocOk := true,
            pin := .ok { version := 1, pageSizeFlag := .other, physAddrs := [] },
            newHandle := 1, putUserOk := true } 1000 4096 []).rc < 0
       ∧ (strom_ioctl_map_gpu_memory
            { copyOk := true, kmallocOk := true,
              pin := .ok { version := 1, pageSizeFlag := .other, physAddrs := [] },
              newHandle := 1, putUserOk := true } 1000 4096 []).putPages = 1
       ∧ (strom_ioctl_map_gpu_memory
            { copyOk := true, kmallocOk := true,
              pin := .ok { version := 1, pageSizeFlag := .other, physAddrs := [] },
              newHandle := 1, putUserOk := true } 1000 4096 []).kfree = 1) :=
  ⟨rfl, rfl,
   strom_map_error_after_pin_releases _ 1000 4096 []
     { version := 1, pageSizeFlag := .other, physAddrs := [] } rfl rfl rfl (by decide)⟩

/-! ## Claim C9 (confirmed): query returns truncated results as success -/

/-- C9: for every query of a mapped segment whose caller buffer has room
for `nrooms` entries (header copy-out and per-entry `put_user` all
succeeding), `strom_ioctl_info_gpu_memory` returns success (`0`), the
header carries the page size and the full entry count, and the physical
addresses written are exactly the first `min nrooms entries` — when
`nrooms` is smaller than the entry count the result is truncated but the
return value is still success, not an error. -/
theorem strom_info_gpu_memory_truncates_not_errors
    (handle nrooms : Nat) (reg : List GpuSegment) (m : GpuSegment)
    (hfind : reg.find? (fun x => x.handle == handle) = some m) :
    strom_ioctl_info_gpu_memory handle nrooms reg true none
      = (0, some (m.page_table.version, m.page_size, m.page_table.physAddrs.length),
         m.page_table.physAddrs.take (min nrooms m.page_table.physAddrs.length))
    ∧ (m.page_table.physAddrs.take (min nrooms m.page_table.physAddrs.length)).length
        = min nrooms m.page_table.physAddrs.length := by
  constructor
  · unfold strom_ioctl_info_gpu_memory
    rw [hfind]
    simp
  · rw [List.length_take]
    omega

/-- Concrete mapped segment with three device pages, used by witnesses. -/
def sampleSegment : GpuSegment :=
  { handle := 3, map_address := 0, map_offset := 0, map_length := 196608,
    page_size := 65536,
    page_table := { version := 1, pageSizeFlag := .sz64KB,
                    physAddrs := [100, 200, 300] } }

/-- Instantiation of the C9 theorem at a concrete input where the
caller's buffer (2 rooms) is smaller than the entry count (3). -/
theorem strom_info_gpu_memory_truncates_not_errors_witness :
    ([sampleSegment] : List GpuSegment).find? (fun x => x.handle == 3)
      = some sampleSegment
    ∧ (strom_ioctl_info_gpu_memory 3 2 [sampleSegment] true none
        = (0, some (sampleSegment.page_table.version, sampleSegment.page_size,
             sampleSegment.page_table.physAddrs.length),
           sampleSegment.page_table.physAddrs.take
             (min 2 sampleSegment.page_table.physAddrs.length))
       ∧ (sampleSegment.page_table.physAddrs.take
            (min 2 sampleSegment.page_table.physAddrs.length)).length
          = min 2 sampleSegment.page_table.physAddrs.length) :=
  ⟨by decide, strom_info_gpu_memory_truncates_not_errors 3 2 [sampleSegment]
    sampleSegment (by decide)⟩

/-! ## Claim C10 (confirmed): the registry is linked only as the final step -/

/-- Validity of the modelled `__nvidia_p2p_get_pages` outcome: the C code
takes the error path exactly when the returned `rc` is nonzero, so an
`error` outcome carries a nonzero code. -/
def pinFailedNonzero : Except Int P2pPageTable → Prop
  | .error rc => rc ≠ 0
  | .ok _ => True

instance (e : Except Int P2pPageTable) : Decidable (pinFailedNonzero e) :=
  match e with
  | .error rc => inferInstanceAs (Decidable (rc ≠ 0))
  | .ok _ => inferInstanceAs (Decidable True)

/-- C10: if `strom_ioctl_map_gpu_memory` returns any error, the segment
registry is left unchanged — the new entry is linked only as the final
step, so the call succeeds exactly when argument copy, allocation,
pinning, page-size classification and handle copy-out all succeeded, and
then the registry gains exactly the one new segment (`linkedSegment`) at
the front. -/
theorem strom_map_links_only_on_success
    (env : MapEnv) (vaddress length : Nat) (reg : List GpuSegment)
    (hwf : pinFailedNonzero env.pin) :
    ((strom_ioctl_map_gpu_memory env vaddress length reg).rc ≠ 0 →
       (strom_ioctl_map_gpu_memory env vaddress length reg).registry = reg)
    ∧ ((strom_ioctl_map_gpu_memory env vaddress length reg).rc = 0 →
       env.copyOk = true ∧ env.kmallocOk = true ∧ env.putUserOk = true
       ∧ (linkedSegment env vaddress length).isSome = true
       ∧ (strom_ioctl_map_gpu_memory env vaddress length reg).registry
           = (linkedSegment env vaddress length).toList ++ reg) := by
  by_cases hcopy : env.copyOk = true
  · by_cases hmal : env.kmallocOk = true
    · cases hpin : env.pin with
      | error rc =>
          have hrc : rc ≠ 0 := by
            rw [hpin] at hwf
            exact hwf
          have hout : strom_ioctl_map_gpu_memory env vaddress length reg
              = { rc := rc, putPages := 0, kfree := 1, registry := reg } := by
            simp [strom_ioctl_map_gpu_memory, hcopy, hmal, hpin]
          rw [hout]
          exact ⟨fun _ => rfl, fun h0 => absurd h0 hrc⟩
      | ok pt =>
          cases hcl : classifyPageSize pt.pageSizeFlag with
          | none =>
              have hout : strom_ioctl_map_gpu_memory env vaddress length reg
                  = { rc := -EINVAL, putPages := 1, kfree := 1, registry := reg } := by
                simp [strom_ioctl_map_gpu_memory, hcopy, hmal, hpin, hcl]
              rw [hout]
              exact ⟨fun _ => rfl, fun h0 => absurd h0 (by norm_num [EINVAL])⟩
          | some ps =>
              by_cases hpu : env.putUserOk = true
              · have hseg : linkedSegment env vaddress length
                    = some { handle := env.newHandle
                             map_address := map_address vaddress
                             map_offset := map_offset vaddress
                             map_length := map_length vaddress length
                             page_size := ps
                             page_table := pt } := by
                  simp [linkedSegment, hpin, hcl]
                have hout : strom_ioctl_map_gpu_memory env vaddress length reg
                    = { rc := 0, putPages := 0, kfree := 0,
                        registry :=
                          { handle := env.newHandle
                            map_address := map_address vaddress
                            map_offset := map_offset vaddress
                            map_length := map_length vaddress length
                            page_size := ps
                            page_table := pt } :: reg } := by
                  simp [strom_ioctl_map_gpu_memory, hcopy, hmal, hpin, hcl, hpu]
                rw [hout, hseg]
                refine ⟨fun hne => absurd rfl hne, fun _ => ⟨hcopy, hmal, hpu, rfl, rfl⟩⟩
              · have hpu' : env.putUserOk = false := Bool.eq_false_iff.mpr hpu
                have hout : strom_ioctl_map_gpu_memory env vaddress length reg
                    = { rc := -EFAULT, putPages := 1, kfree := 1, registry := reg } := by
                  simp [strom_ioctl_map_gpu_memory, hcopy, hmal, hpin, hcl, hpu']
                rw [hout]
                exact ⟨fun _ => rfl, fun h0 => absurd h0 (by norm_num [EFAULT])⟩
    · have hmal' : env.kmallocOk = false := Bool.eq_false_iff.mpr hmal
      have hout : strom_ioctl_map_gpu_memory env vaddress length reg
          = { rc := -ENOMEM, putPages := 0, kfree := 0, registry := reg } := by
        simp [strom_ioctl_map_gpu_memory, hcopy, hmal']
      rw [hout]
      exact ⟨fun _ => rfl, fun h0 => absurd h0 (by norm_num [ENOMEM])⟩
  · have hcopy' : env.copyOk = false := Bool.eq_false_iff.mpr hcopy
    have hout : strom_ioctl_map_gpu_memory env vaddress length reg
        = { rc := -EFAULT, putPages := 0, kfree := 0, registry := reg } := by
      simp [strom_ioctl_map_gpu_memory, hcopy']
    rw [hout]
    exact ⟨fun _ => rfl, fun h0 => absurd h0 (by norm_num [EFAULT])⟩

/-- Instantiation of the C10 theorem at a concrete successful mapping. -/
theorem strom_map_links_only_on_success_witness :
    pinFailedNonzero
        ({ copyOk := true, kmallocOk := true,
           pin := .ok { version := 1, pageSizeFlag := .sz64KB, physAddrs := [100] },
           newHandle := 1, putUserOk := true } : MapEnv).pin
    ∧ (((strom_ioctl_map_gpu_memory
            { copyOk := true, kmallocOk := true,
              pin := .ok { version := 1, pageSizeFlag := .sz64KB, physAddrs := [100] },
              newHandle := 1, putUserOk := true } 1000 4096 []).rc ≠ 0 →
          (strom_ioctl_map_gpu_memory
            { copyOk := true, kmallocOk := true,
              pin := .ok { version := 1, pageSizeFlag := .sz64KB, physAddrs := [100] },
              newHandle := 1, putUserOk := true } 1000 4096 []).registry = [])
       ∧ ((strom_ioctl_map_gpu_memory
            { copyOk := true, kmallocOk := true,
              pin := .ok { version := 1, pageSizeFlag := .sz64KB, physAddrs := [100] },
              newHandle := 1, putUserOk := true } 1000 4096 []).rc = 0 →
          ({ copyOk := true, kmallocOk := true,
             pin := .ok { version := 1, pageSizeFlag := .sz64KB, physAddrs := [100] },
             newHandle := 1, putUserOk := true } : MapEnv).copyOk = true
          ∧ ({ copyOk := true, kmallocOk := true,
               pin := .ok { version := 1, pageSizeFlag := .sz64KB, physAddrs := [100] },
               newHandle := 1, putUserOk := true } : MapEnv).kmallocOk = true
          ∧ ({ copyOk := true, kmallocOk := true,
               pin := .ok { version := 1, pageSizeFlag := .sz64KB, physAddrs := [100] },
               newHandle := 1, putUserOk := true } : MapEnv).putUserOk = true
          ∧ (linkedSegment
               { copyOk := true, kmallocOk := true,
                 pin := .ok { version := 1, pageSizeFlag := .sz64KB, physAddrs := [100] },
                 newHandle := 1, putUserOk := true } 1000 4096).isSome = true
          ∧ (strom_ioctl_map_gpu_memory
               { copyOk := true, kmallocOk := true,
                 pin := .ok { version := 1, pageSizeFlag := .sz64KB, physAddrs := [100] },
                 newHandle := 1, putUserOk := true } 1000 4096 []).registry
              = (linkedSegment
                  { copyOk := true, kmallocOk := true,
                    pin := .ok { version := 1, pageSizeFlag := .sz64KB, physAddrs := [100] },
                    newHandle := 1, putUserOk := true } 1000 4096).toList ++ [])) :=
  ⟨trivial,
   strom_map_links_only_on_success
     { copyOk := true, kmallocOk := true,
       pin := .ok { version := 1, pageSizeFlag := .sz64KB, physAddrs := [100] },
       newHandle := 1, putUserOk := true } 1000 4096 [] trivial⟩

/-! ## Claim C1: the DMA copy-descriptor coalescing engine

The bodies of `submit_memcpy_page2gpu` (src/nvme-strom.c:786-802) and
`__strom_memcpy_ssd2gpu_async` (src/nvme-strom.c:818-1033) are
non-compiling placeholder sketches in the source (undeclared variables,
bare `...` argument lists, fragments such as `pagesz -= ;` and
`curr_dma_len;`), so the coalescing engine cannot be embedded from the C
text.  The engine below is therefore modelled from the spec, section 4.3
steps 1-5: a pending source/destination extent pair is carried across
units; a unit whose source address does not continue the pending source
extent flushes the pending descriptor first (step 3); extending the
pending destination extent across a destination page-grid boundary
splits at the boundary, flushing the earlier part and restarting the
pending extent at the boundary (step 4); otherwise the pending extents
are extended in place (step 5); a final flush runs after the last unit.
Destination extents are tracked as segment-relative byte offsets; the
physical address of an extent starting at offset `o` is
`pageTable[o / G] + o % G`, which is well defined for a whole extent
precisely because no emitted extent crosses a `G`-boundary. -/

/-- Modelled from the spec: one contiguous source extent fed to the
coalescing engine of a single task (one pinned host page or one resident
file-cache page: its physical source address and its length); the
per-unit loop body of `__strom_memcpy_ssd2gpu_async` is a non-compiling
sketch in the source. -/
structure SrcExtent where
  addr : Nat
  len : Nat
deriving DecidableEq

/-- Modelled from the spec: one emitted hardware copy descriptor — a
contiguous source extent starting at `srcAddr` and a contiguous
destination extent starting at segment-relative byte offset `dstOff`,
both of length `len`. -/
structure CopyDesc where
  srcAddr : Nat
  dstOff : Nat
  len : Nat
deriving DecidableEq

/-- Modelled from the spec: the pending (not yet flushed) source and
destination extent pair of `strom_dma_state`; the logical cursor
`curr_offset` is `dstOff + len`. -/
structure Pending where
  srcAddr : Nat
  dstOff : Nat
  len : Nat
deriving DecidableEq

/-- The first destination page-grid boundary strictly beyond `off`. -/
def nextBound (G off : Nat) : Nat := (off / G + 1) * G

/-- Modelled from the spec (step 4, iterated): split a fresh run whose
destination starts at the page-aligned offset `c` into page-sized
descriptors, flushing a full page each time the remainder still crosses
the next boundary; the remainder stays pending. -/
def chop (G src c l : Nat) : List CopyDesc × Pending :=
  if _h : 0 < G ∧ G < l then
    let pr := chop G (src + G) (c + G) (l - G)
    ({ srcAddr := src, dstOff := c, len := G } :: pr.1, pr.2)
  else
    ([], { srcAddr := src, dstOff := c, len := l })
termination_by l
decreasing_by omega

/-- Modelled from the spec (steps 2, 4 and 5): consume `l` further source
bytes that continue the pending extent `p`.  If extending the pending
destination extent would cross into a different destination page-table
entry, extend it up through the boundary, flush it, and continue with a
fresh pending extent starting at the boundary (re-resolving the
destination address there); otherwise just extend the pending extents. -/
def consume (G : Nat) (p : Pending) (l : Nat) : List CopyDesc × Pending :=
  if 0 < G ∧ nextBound G p.dstOff < p.dstOff + p.len + l then
    let ext := nextBound G p.dstOff - (p.dstOff + p.len)
    let pr := chop G (p.srcAddr + p.len + ext) (nextBound G p.dstOff) (l - ext)
    ({ srcAddr := p.srcAddr, dstOff := p.dstOff, len := p.len + ext } :: pr.1, pr.2)
  else
    ([], { srcAddr := p.srcAddr, dstOff := p.dstOff, len := p.len + l })

/-- Modelled from the spec: flush the pending descriptor; an empty
pending extent emits nothing. -/
def flushPending (p : Pending) : List CopyDesc :=
  if p.len = 0 then [] else [{ srcAddr := p.srcAddr, dstOff := p.dstOff, len := p.len }]

/-- Modelled from the spec (step 3, then 4-5): process one source extent:
if its source address does not immediately follow the pending source
extent, flush the pending descriptor and restart the pending extent at
the current cursor; then consume the unit's bytes with boundary
splitting. -/
def stepExtent (G : Nat) (p : Pending) (u : SrcExtent) : List CopyDesc × Pending :=
  if u.addr = p.srcAddr + p.len then
    consume G p u.len
  else
    let pr := consume G { srcAddr := u.addr, dstOff := p.dstOff + p.len, len := 0 } u.len
    (flushPending p ++ pr.1, pr.2)

/-- Modelled from the spec: run the engine over the ordered sequence of
source extents, threading the pending state. -/
def runEngine (G : Nat) (p : Pending) : List SrcExtent → List CopyDesc × Pending
  | [] => ([], p)
  | u :: us =>
      let pr := stepExtent G p u
      let rest := runEngine G pr.2 us
      (pr.1 ++ rest.1, rest.2)

/-- Modelled from the spec: the full engine for one task — start with an
empty pending extent at destination offset `d0` (an all-zero source
state, as in the `strom_dma_state` initialisation), process every unit,
and flush any remaining pending extent after the last unit. -/
def emitDescs (G d0 : Nat) (units : List SrcExtent) : List CopyDesc :=
  let pr := runEngine G { srcAddr := 0, dstOff := d0, len := 0 } units
  pr.1 ++ flushPending pr.2

/-! ### The specification-side run count

`specRunCount` formalises "the number of maximal runs that are
simultaneously source-contiguous and do not cross a destination
G-boundary" directly on the byte stream: byte `q` of the concatenated
source has address `srcByte units q`; an interior stream position is a
run boundary (cut) iff the source address does not continue there or a
destination `G`-boundary falls there. -/

def totalLen (units : List SrcExtent) : Nat := (units.map SrcExtent.len).sum

/-- Source address of byte `q` of the concatenated source stream. -/
def srcByte : List SrcExtent → Nat → Nat
  | [], _ => 0
  | u :: us, q => if q < u.len then u.addr + q else srcByte us (q - u.len)

/-- A cut (start of a new maximal run) at interior stream position `q`:
either the source is not contiguous across `q`, or the destination
offset `d0 + q` sits on a page-grid boundary. -/
def isCut (G d0 : Nat) (units : List SrcExtent) (q : Nat) : Prop :=
  srcByte units q ≠ srcByte units (q - 1) + 1 ∨ (d0 + q) % G = 0

instance (G d0 : Nat) (units : List SrcExtent) : DecidablePred (isCut G d0 units) :=
  fun q => by unfold isCut; infer_instance

/-- The number of maximal runs of the stream that are source-contiguous
and do not cross a destination `G`-boundary: one more than the number of
interior cuts (and zero for an empty stream). -/
def specRunCount (G d0 : Nat) (units : List SrcExtent) : Nat :=
  if totalLen units = 0 then 0
  else 1 + ((Finset.Ioo 0 (totalLen units)).filter (isCut G d0 units)).card

/-- Destination extents chain seamlessly from `start` to `stop`: each
descriptor starts exactly where the previous one ended (no gaps, no
overlaps) and is nonempty. -/
def chained (start : Nat) : List CopyDesc → Nat → Prop
  | [], stop => start = stop
  | d :: ds, stop => d.dstOff = start ∧ 0 < d.len ∧ chained (start + d.len) ds stop

/-- A descriptor's destination extent stays within one destination
page-table entry. -/
def withinOnePage (G : Nat) (d : CopyDesc) : Bool :=
  d.dstOff / G == (d.dstOff + d.len - 1) / G

def allWithinDstPage (G : Nat) (ds : List CopyDesc) : Bool :=
  ds.all (withinOnePage G)

/-- Every source extent is nonempty. -/
def allPos (units : List SrcExtent) : Prop := ∀ u ∈ units, 0 < u.len

instance (units : List SrcExtent) : Decidable (allPos units) :=
  List.decidableBAll _ units

/-! ### Page-grid arithmetic -/

theorem Ico_add_one_left (a b : Nat) : Finset.Ico (a + 1) b = Finset.Ioo a b := by
  have := Nat.Ico_succ_left a b
  simpa using this

theorem lt_nextBound (G off : Nat) (hG : 0 < G) : off < nextBound G off := by
  have h1 := Nat.div_add_mod off G
  have h0 : G * (off / G) = off / G * G := Nat.mul_comm _ _
  have h2 : off % G < G := Nat.mod_lt off hG
  unfold nextBound
  have h3 : (off / G + 1) * G = off / G * G + G := by ring
  omega

theorem nextBound_dvd (G off : Nat) : G ∣ nextBound G off :=
  ⟨off / G + 1, by unfold nextBound; ring⟩

theorem nextBound_of_dvd (G c : Nat) (hG : 0 < G) (hc : G ∣ c) :
    nextBound G c = c + G := by
  obtain ⟨k, rfl⟩ := hc
  unfold nextBound
  rw [Nat.mul_div_cancel_left k hG]
  ring

theorem ge_nextBound_of_mod (G off m : Nat) (_hG : 0 < G) (hm : m % G = 0)
    (hlt : off < m) : nextBound G off ≤ m := by
  obtain ⟨j, rfl⟩ := Nat.dvd_of_mod_eq_zero hm
  have hj : off / G < j := by
    by_contra hle
    push_neg at hle
    have h1 : G * j ≤ G * (off / G) := Nat.mul_le_mul_left G hle
    have h2 : off / G * G ≤ off := Nat.div_mul_le_self off G
    have h3 : G * (off / G) = off / G * G := Nat.mul_comm _ _
    omega
  unfold nextBound
  have h4 : (off / G + 1) * G ≤ j * G := Nat.mul_le_mul_right G (Nat.succ_le_of_lt hj)
  have h5 : j * G = G * j := Nat.mul_comm _ _
  omega

theorem div_eq_of_lt_nextBound (G off x : Nat) (_hG : 0 < G) (h1 : off ≤ x)
    (h2 : x < nextBound G off) : x / G = off / G := by
  have hle : off / G ≤ x / G := Nat.div_le_div_right h1
  have hlt : x / G < off / G + 1 := by
    by_contra hcon
    push_neg at hcon
    have h3 : (off / G + 1) * G ≤ x / G * G := Nat.mul_le_mul_right G hcon
    have h4 : x / G * G ≤ x := Nat.div_mul_le_self x G
    unfold nextBound at h2
    omega
  omega

/-! ### Counting page-grid boundaries inside a half-open interval -/

/-- Number of destination page-grid boundaries (multiples of `G`) lying
strictly between `a` and `b`. -/
def cardMult (G a b : Nat) : Nat :=
  ((Finset.Ioo a b).filter (fun m => m % G = 0)).card

theorem cardMult_eq_zero_below (G off X : Nat) (hG : 0 < G)
    (hX : X ≤ nextBound G off) : cardMult G off X = 0 := by
  unfold cardMult
  rw [Finset.card_eq_zero, Finset.filter_eq_empty_iff]
  intro m hm
  rw [Finset.mem_Ioo] at hm
  intro hmod
  have := ge_nextBound_of_mod G off m hG hmod hm.1
  omega

theorem cardMult_split_nextBound (G off X : Nat) (hG : 0 < G)
    (hX : nextBound G off < X) :
    cardMult G off X = 1 + cardMult G (nextBound G off) X := by
  have hob : off < nextBound G off := lt_nextBound G off hG
  have hsplit : Finset.Ico (off + 1) (nextBound G off) ∪ Finset.Ico (nextBound G off) X
      = Finset.Ico (off + 1) X :=
    Finset.Ico_union_Ico_eq_Ico (by omega) (by omega)
  unfold cardMult
  rw [← Ico_add_one_left, ← hsplit, Finset.filter_union,
    Finset.card_union_of_disjoint
      (Finset.disjoint_filter_filter (Finset.Ico_disjoint_Ico_consecutive _ _ _))]
  have hzero :
      ((Finset.Ico (off + 1) (nextBound G off)).filter (fun m => m % G = 0)).card = 0 := by
    rw [Finset.card_eq_zero, Finset.filter_eq_empty_iff]
    intro m hm hmod
    rw [Finset.mem_Ico] at hm
    have := ge_nextBound_of_mod G off m hG hmod (by omega)
    omega
  have hmodb : nextBound G off % G = 0 := by
    obtain ⟨k, hk⟩ := nextBound_dvd G off
    rw [hk]
    exact Nat.mul_mod_right G k
  have hsecond :
      ((Finset.Ico (nextBound G off) X).filter (fun m => m % G = 0)).card
        = 1 + ((Finset.Ioo (nextBound G off) X).filter (fun m => m % G = 0)).card := by
    rw [← Finset.Ioo_insert_left hX, Finset.filter_insert, if_pos hmodb,
      Finset.card_insert_of_not_mem (by simp)]
    omega
  omega

theorem cardMult_cursor_split (G off e X : Nat) (hG : 0 < G) (hoe : off ≤ e)
    (hinv : e ≤ nextBound G off) (hX : e < X) :
    cardMult G off X = (if off < e ∧ e % G = 0 then 1 else 0) + cardMult G e X := by
  by_cases hc : off < e ∧ e % G = 0
  · rw [if_pos hc]
    have heb : e = nextBound G off :=
      le_antisymm hinv (ge_nextBound_of_mod G off e hG hc.2 hc.1)
    rw [heb] at hX ⊢
    exact cardMult_split_nextBound G off X hG hX
  · rw [if_neg hc]
    have hsplit : Finset.Ico (off + 1) (e + 1) ∪ Finset.Ico (e + 1) X
        = Finset.Ico (off + 1) X :=
      Finset.Ico_union_Ico_eq_Ico (by omega) (by omega)
    unfold cardMult
    rw [← Ico_add_one_left, ← Ico_add_one_left, ← hsplit,
      Finset.filter_union,
      Finset.card_union_of_disjoint
        (Finset.disjoint_filter_filter (Finset.Ico_disjoint_Ico_consecutive _ _ _))]
    have hzero : ((Finset.Ico (off + 1) (e + 1)).filter (fun m => m % G = 0)).card = 0 := by
      rw [Finset.card_eq_zero, Finset.filter_eq_empty_iff]
      intro m hm hmod
      rw [Finset.mem_Ico] at hm
      have hge := ge_nextBound_of_mod G off m hG hmod (by omega)
      have hme : m = e := by omega
      exact hc ⟨by omega, hme ▸ hmod⟩
    omega

/-! ### Chaining and page-containment helpers -/

theorem chained_append {ds es : List CopyDesc} {a b c : Nat}
    (h1 : chained a ds b) (h2 : chained b es c) : chained a (ds ++ es) c := by
  induction ds generalizing a with
  | nil =>
      have : a = b := h1
      rw [List.nil_append, this]
      exact h2
  | cons d ds ih =>
      obtain ⟨hd, hp, hch⟩ := h1
      exact ⟨hd, hp, ih hch⟩

theorem chained_flushPending (p : Pending) :
    chained p.dstOff (flushPending p) (p.dstOff + p.len) := by
  unfold flushPending
  by_cases hl : p.len = 0
  · rw [if_pos hl]
    show p.dstOff = p.dstOff + p.len
    omega
  · rw [if_neg hl]
    refine ⟨rfl, ?_, ?_⟩
    · show 0 < p.len
      omega
    · show p.dstOff + p.len = p.dstOff + p.len
      rfl

theorem flushPending_length (p : Pending) :
    (flushPending p).length = if p.len = 0 then 0 else 1 := by
  unfold flushPending
  by_cases hl : p.len = 0
  · rw [if_pos hl, if_pos hl]
    rfl
  · rw [if_neg hl, if_neg hl]
    rfl

theorem withinOnePage_of_inv (G : Nat) (hG : 0 < G) (d : CopyDesc)
    (hpos : 0 < d.len) (hend : d.dstOff + d.len ≤ nextBound G d.dstOff) :
    withinOnePage G d = true := by
  unfold withinOnePage
  rw [beq_iff_eq]
  exact (div_eq_of_lt_nextBound G d.dstOff (d.dstOff + d.len - 1) hG (by omega)
    (by omega)).symm

theorem allWithin_append (G : Nat) (ds es : List CopyDesc)
    (h1 : allWithinDstPage G ds = true) (h2 : allWithinDstPage G es = true) :
    allWithinDstPage G (ds ++ es) = true := by
  unfold allWithinDstPage at h1 h2 ⊢
  rw [List.all_append, h1, h2]
  rfl

theorem allWithin_flushPending (G : Nat) (hG : 0 < G) (p : Pending)
    (hinv : p.dstOff + p.len ≤ nextBound G p.dstOff) :
    allWithinDstPage G (flushPending p) = true := by
  unfold flushPending
  by_cases hp : p.len = 0
  · rw [if_pos hp]
    rfl
  · rw [if_neg hp]
    show (withinOnePage G { srcAddr := p.srcAddr, dstOff := p.dstOff, len := p.len } && true)
      = true
    rw [Bool.and_true]
    exact withinOnePage_of_inv G hG _ (by show 0 < p.len; omega) hinv

/-! ### Unfolding equations for the engine -/

theorem chop_eq_pos (G src c l : Nat) (h : 0 < G ∧ G < l) :
    chop G src c l =
      ({ srcAddr := src, dstOff := c, len := G } :: (chop G (src + G) (c + G) (l - G)).1,
       (chop G (src + G) (c + G) (l - G)).2) := by
  conv_lhs => unfold chop
  rw [dif_pos h]

theorem chop_eq_neg (G src c l : Nat) (h : ¬(0 < G ∧ G < l)) :
    chop G src c l = ([], { srcAddr := src, dstOff := c, len := l }) := by
  unfold chop
  rw [dif_neg h]

theorem consume_eq_pos (G : Nat) (p : Pending) (l : Nat)
    (h : 0 < G ∧ nextBound G p.dstOff < p.dstOff + p.len + l) :
    consume G p l =
      ({ srcAddr := p.srcAddr, dstOff := p.dstOff,
         len := p.len + (nextBound G p.dstOff - (p.dstOff + p.len)) } ::
         (chop G (p.srcAddr + p.len + (nextBound G p.dstOff - (p.dstOff + p.len)))
           (nextBound G p.dstOff)
           (l - (nextBound G p.dstOff - (p.dstOff + p.len)))).1,
       (chop G (p.srcAddr + p.len + (nextBound G p.dstOff - (p.dstOff + p.len)))
           (nextBound G p.dstOff)
           (l - (nextBound G p.dstOff - (p.dstOff + p.len)))).2) := by
  unfold consume
  rw [if_pos h]

theorem consume_eq_neg (G : Nat) (p : Pending) (l : Nat)
    (h : ¬(0 < G ∧ nextBound G p.dstOff < p.dstOff + p.len + l)) :
    consume G p l = ([], { srcAddr := p.srcAddr, dstOff := p.dstOff, len := p.len + l }) := by
  unfold consume
  rw [if_neg h]

theorem stepExtent_eq_pos (G : Nat) (p : Pending) (u : SrcExtent)
    (h : u.addr = p.srcAddr + p.len) : stepExtent G p u = consume G p u.len := by
  unfold stepExtent
  rw [if_pos h]

theorem stepExtent_eq_neg (G : Nat) (p : Pending) (u : SrcExtent)
    (h : ¬(u.addr = p.srcAddr + p.len)) :
    stepExtent G p u =
      (flushPending p
        ++ (consume G { srcAddr := u.addr, dstOff := p.dstOff + p.len, len := 0 } u.len).1,
       (consume G { srcAddr := u.addr, dstOff := p.dstOff + p.len, len := 0 } u.len).2) := by
  unfold stepExtent
  rw [if_neg h]

theorem runEngine_cons (G : Nat) (p : Pending) (u : SrcExtent) (us : List SrcExtent) :
    runEngine G p (u :: us) =
      ((stepExtent G p u).1 ++ (runEngine G (stepExtent G p u).2 us).1,
       (runEngine G (stepExtent G p u).2 us).2) := rfl

theorem emitDescs_eq (G d0 : Nat) (units : List SrcExtent) :
    emitDescs G d0 units =
      (runEngine G { srcAddr := 0, dstOff := d0, len := 0 } units).1
        ++ flushPending (runEngine G { srcAddr := 0, dstOff := d0, len := 0 } units).2 := rfl

theorem totalLen_cons (u : SrcExtent) (us : List SrcExtent) :
    totalLen (u :: us) = u.len + totalLen us := by
  unfold totalLen
  rw [List.map_cons, List.sum_cons]

/-! ### Behaviour of `chop`: page-sized descriptors between grid boundaries -/

theorem chop_spec (G : Nat) (l : Nat) : ∀ (src c : Nat), 0 < G → G ∣ c →
    (chop G src c l).1.length = cardMult G c (c + l) ∧
    chained c (chop G src c l).1 (chop G src c l).2.dstOff ∧
    (chop G src c l).2.dstOff + (chop G src c l).2.len = c + l ∧
    (chop G src c l).2.srcAddr + (chop G src c l).2.len = src + l ∧
    (chop G src c l).2.len ≤ G ∧
    G ∣ (chop G src c l).2.dstOff ∧
    (0 < l → 0 < (chop G src c l).2.len) ∧
    allWithinDstPage G (chop G src c l).1 = true := by
  induction l using Nat.strong_induction_on with
  | _ l ih =>
    intro src c hG hc
    by_cases h : 0 < G ∧ G < l
    · rw [chop_eq_pos G src c l h]
      have hrec := ih (l - G) (by omega) (src + G) (c + G) hG (Dvd.dvd.add hc (dvd_refl G))
      obtain ⟨hlen, hch, hdst, hsrc, hle, hdvd, hpos, hwithin⟩ := hrec
      have hnb : nextBound G c = c + G := nextBound_of_dvd G c hG hc
      have he : c + G + (l - G) = c + l := by omega
      have hse : src + G + (l - G) = src + l := by omega
      refine ⟨?_, ?_, ?_, ?_, hle, hdvd, ?_, ?_⟩
      · show ((chop G (src + G) (c + G) (l - G)).1.length + 1) = cardMult G c (c + l)
        rw [he] at hlen
        have hsplit := cardMult_split_nextBound G c (c + l) hG (by omega)
        rw [hnb] at hsplit
        omega
      · exact ⟨rfl, h.1, hch⟩
      · show (chop G (src + G) (c + G) (l - G)).2.dstOff
            + (chop G (src + G) (c + G) (l - G)).2.len = c + l
        rw [he] at hdst
        omega
      · show (chop G (src + G) (c + G) (l - G)).2.srcAddr
            + (chop G (src + G) (c + G) (l - G)).2.len = src + l
        rw [hse] at hsrc
        omega
      · exact fun _ => hpos (by omega)
      · show (withinOnePage G { srcAddr := src, dstOff := c, len := G }
          && allWithinDstPage G (chop G (src + G) (c + G) (l - G)).1) = true
        rw [Bool.and_eq_true]
        refine ⟨?_, hwithin⟩
        refine withinOnePage_of_inv G hG _ (by show 0 < G; omega) ?_
        show c + G ≤ nextBound G c
        omega
    · rw [chop_eq_neg G src c l h]
      refine ⟨?_, rfl, ?_, ?_, by show l ≤ G; omega, hc, fun hl => hl, rfl⟩
      · show (0 : Nat) = cardMult G c (c + l)
        rw [cardMult_eq_zero_below G c (c + l) hG (by rw [nextBound_of_dvd G c hG hc]; omega)]
      · show c + l = c + l
        rfl
      · show src + l = src + l
        rfl

/-! ### Behaviour of `consume`: extend the pending run, splitting at boundaries -/

theorem consume_spec (G : Nat) (p : Pending) (l : Nat) (hG : 0 < G)
    (hinv : p.dstOff + p.len ≤ nextBound G p.dstOff) :
    (consume G p l).1.length = cardMult G p.dstOff (p.dstOff + p.len + l) ∧
    chained p.dstOff (consume G p l).1 (consume G p l).2.dstOff ∧
    (consume G p l).2.dstOff + (consume G p l).2.len = p.dstOff + p.len + l ∧
    (consume G p l).2.srcAddr + (consume G p l).2.len = p.srcAddr + p.len + l ∧
    (consume G p l).2.dstOff + (consume G p l).2.len
      ≤ nextBound G (consume G p l).2.dstOff ∧
    (0 < p.len + l → 0 < (consume G p l).2.len) ∧
    allWithinDstPage G (consume G p l).1 = true := by
  have hnb : p.dstOff < nextBound G p.dstOff := lt_nextBound G p.dstOff hG
  by_cases h : 0 < G ∧ nextBound G p.dstOff < p.dstOff + p.len + l
  · rw [consume_eq_pos G p l h]
    have hchop := chop_spec G (l - (nextBound G p.dstOff - (p.dstOff + p.len)))
      (p.srcAddr + p.len + (nextBound G p.dstOff - (p.dstOff + p.len)))
      (nextBound G p.dstOff) hG (nextBound_dvd G p.dstOff)
    obtain ⟨hlen, hch, hdst, hsrc, hle, hdvd, hpos, hwithin⟩ := hchop
    have heB : nextBound G p.dstOff + (l - (nextBound G p.dstOff - (p.dstOff + p.len)))
        = p.dstOff + p.len + l := by omega
    have heS : p.srcAddr + p.len + (nextBound G p.dstOff - (p.dstOff + p.len))
          + (l - (nextBound G p.dstOff - (p.dstOff + p.len)))
        = p.srcAddr + p.len + l := by omega
    refine ⟨?_, ?_, ?_, ?_, ?_, ?_, ?_⟩
    · show ((chop G (p.srcAddr + p.len + (nextBound G p.dstOff - (p.dstOff + p.len)))
          (nextBound G p.dstOff)
          (l - (nextBound G p.dstOff - (p.dstOff + p.len)))).1.length + 1)
        = cardMult G p.dstOff (p.dstOff + p.len + l)
      rw [heB] at hlen
      have hsplit := cardMult_split_nextBound G p.dstOff (p.dstOff + p.len + l) hG h.2
      omega
    · refine ⟨rfl, by show 0 < p.len + (nextBound G p.dstOff - (p.dstOff + p.len)); omega, ?_⟩
      have hstart : p.dstOff + (p.len + (nextBound G p.dstOff - (p.dstOff + p.len)))
          = nextBound G p.dstOff := by omega
      rw [hstart]
      exact hch
    · show (chop G (p.srcAddr + p.len + (nextBound G p.dstOff - (p.dstOff + p.len)))
          (nextBound G p.dstOff)
          (l - (nextBound G p.dstOff - (p.dstOff + p.len)))).2.dstOff
        + (chop G (p.srcAddr + p.len + (nextBound G p.dstOff - (p.dstOff + p.len)))
          (nextBound G p.dstOff)
          (l - (nextBound G p.dstOff - (p.dstOff + p.len)))).2.len
        = p.dstOff + p.len + l
      rw [heB] at hdst
      omega
    · show (chop G (p.srcAddr + p.len + (nextBound G p.dstOff - (p.dstOff + p.len)))
          (nextBound G p.dstOff)
          (l - (nextBound G p.dstOff - (p.dstOff + p.len)))).2.srcAddr
        + (chop G (p.srcAddr + p.len + (nextBound G p.dstOff - (p.dstOff + p.len)))
          (nextBound G p.dstOff)
          (l - (nextBound G p.dstOff - (p.dstOff + p.len)))).2.len
        = p.srcAddr + p.len + l
      rw [heS] at hsrc
      omega
    · show (chop G (p.srcAddr + p.len + (nextBound G p.dstOff - (p.dstOff + p.len)))
          (nextBound G p.dstOff)
          (l - (nextBound G p.dstOff - (p.dstOff + p.len)))).2.dstOff
        + (chop G (p.srcAddr + p.len + (nextBound G p.dstOff - (p.dstOff + p.len)))
          (nextBound G p.dstOff)
          (l - (nextBound G p.dstOff - (p.dstOff + p.len)))).2.len
        ≤ nextBound G (chop G (p.srcAddr + p.len
            + (nextBound G p.dstOff - (p.dstOff + p.len)))
          (nextBound G p.dstOff)
          (l - (nextBound G p.dstOff - (p.dstOff + p.len)))).2.dstOff
      rw [nextBound_of_dvd G _ hG hdvd]
      omega
    · intro _
      show 0 < (chop G (p.srcAddr + p.len + (nextBound G p.dstOff - (p.dstOff + p.len)))
          (nextBound G p.dstOff)
          (l - (nextBound G p.dstOff - (p.dstOff + p.len)))).2.len
      exact hpos (by omega)
    · show (withinOnePage G
              { srcAddr := p.srcAddr, dstOff := p.dstOff,
                len := p.len + (nextBound G p.dstOff - (p.dstOff + p.len)) }
          && allWithinDstPage G
            (chop G (p.srcAddr + p.len + (nextBound G p.dstOff - (p.dstOff + p.len)))
              (nextBound G p.dstOff)
              (l - (nextBound G p.dstOff - (p.dstOff + p.len)))).1) = true
      rw [Bool.and_eq_true]
      refine ⟨?_, hwithin⟩
      refine withinOnePage_of_inv G hG _
        (by show 0 < p.len + (nextBound G p.dstOff - (p.dstOff + p.len)); omega) ?_
      show p.dstOff + (p.len + (nextBound G p.dstOff - (p.dstOff + p.len)))
        ≤ nextBound G p.dstOff
      omega
  · rw [consume_eq_neg G p l h]
    refine ⟨?_, rfl, ?_, ?_, ?_, ?_, rfl⟩
    · show (0 : Nat) = cardMult G p.dstOff (p.dstOff + p.len + l)
      rw [cardMult_eq_zero_below G p.dstOff (p.dstOff + p.len + l) hG (by omega)]
    · show p.dstOff + (p.len + l) = p.dstOff + p.len + l
      omega
    · show p.srcAddr + (p.len + l) = p.srcAddr + p.len + l
      omega
    · show p.dstOff + (p.len + l) ≤ nextBound G p.dstOff
      omega
    · show 0 < p.len + l → 0 < p.len + l
      exact id

/-! ### Behaviour of one engine step -/

theorem stepExtent_spec (G : Nat) (p : Pending) (u : SrcExtent) (hG : 0 < G)
    (hinv : p.dstOff + p.len ≤ nextBound G p.dstOff) (hu : 0 < u.len) :
    (stepExtent G p u).1.length
      = (if 0 < p.len ∧ (u.addr ≠ p.srcAddr + p.len ∨ (p.dstOff + p.len) % G = 0)
          then 1 else 0)
        + cardMult G (p.dstOff + p.len) (p.dstOff + p.len + u.len) ∧
    chained p.dstOff (stepExtent G p u).1 (stepExtent G p u).2.dstOff ∧
    (stepExtent G p u).2.dstOff + (stepExtent G p u).2.len = p.dstOff + p.len + u.len ∧
    (stepExtent G p u).2.srcAddr + (stepExtent G p u).2.len = u.addr + u.len ∧
    (stepExtent G p u).2.dstOff + (stepExtent G p u).2.len
      ≤ nextBound G (stepExtent G p u).2.dstOff ∧
    0 < (stepExtent G p u).2.len ∧
    allWithinDstPage G (stepExtent G p u).1 = true := by
  by_cases heq : u.addr = p.srcAddr + p.len
  · rw [stepExtent_eq_pos G p u heq]
    have hcons := consume_spec G p u.len hG hinv
    obtain ⟨hlen, hch, hdst, hsrc, hinv2, hpos2, hwithin⟩ := hcons
    refine ⟨?_, hch, hdst, ?_, hinv2, hpos2 (by omega), hwithin⟩
    · rw [hlen,
        cardMult_cursor_split G p.dstOff (p.dstOff + p.len) (p.dstOff + p.len + u.len)
          hG (by omega) hinv (by omega)]
      have hiff : (p.dstOff < p.dstOff + p.len ∧ (p.dstOff + p.len) % G = 0)
          ↔ (0 < p.len ∧ (u.addr ≠ p.srcAddr + p.len ∨ (p.dstOff + p.len) % G = 0)) := by
        constructor
        · rintro ⟨h1, h2⟩
          exact ⟨by omega, Or.inr h2⟩
        · rintro ⟨h1, h2⟩
          refine ⟨by omega, ?_⟩
          rcases h2 with h2 | h2
          · exact absurd heq h2
          · exact h2
      rw [if_congr hiff rfl rfl]
    · rw [heq]
      omega
  · rw [stepExtent_eq_neg G p u heq]
    have hfresh : p.dstOff + p.len + 0 ≤ nextBound G (p.dstOff + p.len) := by
      have := lt_nextBound G (p.dstOff + p.len) hG
      omega
    have hcons := consume_spec G { srcAddr := u.addr, dstOff := p.dstOff + p.len, len := 0 }
      u.len hG hfresh
    obtain ⟨hlen, hch, hdst, hsrc, hinv2, hpos2, hwithin⟩ := hcons
    have hlen' : (consume G { srcAddr := u.addr, dstOff := p.dstOff + p.len, len := 0 }
          u.len).1.length
        = cardMult G (p.dstOff + p.len) (p.dstOff + p.len + 0 + u.len) := hlen
    have hch' : chained (p.dstOff + p.len)
        (consume G { srcAddr := u.addr, dstOff := p.dstOff + p.len, len := 0 } u.len).1
        (consume G { srcAddr := u.addr, dstOff := p.dstOff + p.len, len := 0 }
          u.len).2.dstOff := hch
    have hdst' : (consume G { srcAddr := u.addr, dstOff := p.dstOff + p.len, len := 0 }
            u.len).2.dstOff
          + (consume G { srcAddr := u.addr, dstOff := p.dstOff + p.len, len := 0 }
            u.len).2.len
        = p.dstOff + p.len + 0 + u.len := hdst
    have hsrc' : (consume G { srcAddr := u.addr, dstOff := p.dstOff + p.len, len := 0 }
            u.len).2.srcAddr
          + (consume G { srcAddr := u.addr, dstOff := p.dstOff + p.len, len := 0 }
            u.len).2.len
        = u.addr + 0 + u.len := hsrc
    have hpos2' : 0 < (consume G { srcAddr := u.addr, dstOff := p.dstOff + p.len, len := 0 }
        u.len).2.len := hpos2 (by omega)
    refine ⟨?_, ?_, ?_, ?_, hinv2, hpos2', ?_⟩
    · rw [List.length_append, flushPending_length, hlen']
      have h00 : p.dstOff + p.len + 0 + u.len = p.dstOff + p.len + u.len := by omega
      rw [h00]
      by_cases hp : p.len = 0
      · rw [if_pos hp, if_neg (by rintro ⟨h1, _⟩; omega)]
      · rw [if_neg hp, if_pos ⟨by omega, Or.inl heq⟩]
    · exact chained_append (chained_flushPending p) hch'
    · show (consume G { srcAddr := u.addr, dstOff := p.dstOff + p.len, len := 0 }
            u.len).2.dstOff
          + (consume G { srcAddr := u.addr, dstOff := p.dstOff + p.len, len := 0 }
            u.len).2.len
        = p.dstOff + p.len + u.len
      omega
    · show (consume G { srcAddr := u.addr, dstOff := p.dstOff + p.len, len := 0 }
            u.len).2.srcAddr
          + (consume G { srcAddr := u.addr, dstOff := p.dstOff + p.len, len := 0 }
            u.len).2.len
        = u.addr + u.len
      omega
    · exact allWithin_append G _ _ (allWithin_flushPending G hG p hinv) hwithin

/-! ### The run count, computed along the engine state -/

/-- Number of descriptors the engine emits while processing the given
units, starting from a pending extent of length `plen` whose source ends
at address `e` and whose destination cursor is at offset `c`. -/
def runsFrom (G plen e c : Nat) : List SrcExtent → Nat
  | [] => 0
  | u :: us =>
      (if 0 < plen ∧ (u.addr ≠ e ∨ c % G = 0) then 1 else 0)
        + cardMult G c (c + u.len)
        + runsFrom G u.len (u.addr + u.len) (c + u.len) us

theorem runsFrom_cons (G plen e c : Nat) (u : SrcExtent) (us : List SrcExtent) :
    runsFrom G plen e c (u :: us)
      = (if 0 < plen ∧ (u.addr ≠ e ∨ c % G = 0) then 1 else 0)
        + cardMult G c (c + u.len)
        + runsFrom G u.len (u.addr + u.len) (c + u.len) us := rfl

theorem runsFrom_congr (G a b e c : Nat) (us : List SrcExtent) (h : 0 < a ↔ 0 < b) :
    runsFrom G a e c us = runsFrom G b e c us := by
  cases us with
  | nil => rfl
  | cons u us =>
      rw [runsFrom_cons, runsFrom_cons, if_congr (and_congr_left' h) rfl rfl]

/-! ### Behaviour of the full engine loop -/

theorem runEngine_spec (G : Nat) (units : List SrcExtent) : ∀ (p : Pending), 0 < G →
    p.dstOff + p.len ≤ nextBound G p.dstOff → allPos units →
    (runEngine G p units).1.length
        = runsFrom G p.len (p.srcAddr + p.len) (p.dstOff + p.len) units ∧
    chained p.dstOff (runEngine G p units).1 (runEngine G p units).2.dstOff ∧
    (runEngine G p units).2.dstOff + (runEngine G p units).2.len
        = p.dstOff + p.len + totalLen units ∧
    (runEngine G p units).2.dstOff + (runEngine G p units).2.len
        ≤ nextBound G (runEngine G p units).2.dstOff ∧
    ((0 < p.len ∨ units ≠ []) → 0 < (runEngine G p units).2.len) ∧
    allWithinDstPage G (runEngine G p units).1 = true := by
  induction units with
  | nil =>
      intro p hG hinv hall
      refine ⟨rfl, rfl, ?_, hinv, ?_, rfl⟩
      · show p.dstOff + p.len = p.dstOff + p.len + totalLen []
        show p.dstOff + p.len = p.dstOff + p.len + 0
        omega
      · intro hh
        rcases hh with hh | hh
        · exact hh
        · exact absurd rfl hh
  | cons u us ih =>
      intro p hG hinv hall
      rw [runEngine_cons]
      have hu : 0 < u.len := hall u (List.mem_cons_self u us)
      have hall' : allPos us := fun v hv => hall v (List.mem_cons_of_mem u hv)
      have hstep := stepExtent_spec G p u hG hinv hu
      obtain ⟨hslen, hsch, hsdst, hssrc, hsinv, hspos, hswithin⟩ := hstep
      have hrec := ih (stepExtent G p u).2 hG hsinv hall'
      obtain ⟨hrlen, hrch, hrdst, hrinv, hrpos, hrwithin⟩ := hrec
      rw [hssrc, hsdst] at hrlen
      rw [runsFrom_congr G (stepExtent G p u).2.len u.len (u.addr + u.len)
        (p.dstOff + p.len + u.len) us (iff_of_true hspos hu)] at hrlen
      refine ⟨?_, ?_, ?_, hrinv, ?_, ?_⟩
      · rw [List.length_append, hslen, hrlen, runsFrom_cons]
      · exact chained_append hsch hrch
      · rw [hsdst] at hrdst
        rw [hrdst, totalLen_cons]
        omega
      · intro _
        exact hrpos (Or.inl hspos)
      · exact allWithin_append G _ _ hswithin hrwithin

/-! ### Cuts of the byte stream, relative to an engine state -/

/-- Position `q` of the remaining byte stream starts a new maximal run,
given that a pending extent of length `plen` ends at source address `e`
with the destination cursor at offset `c`: at `q = 0` a nonempty pending
run is cut off if the stream does not continue its source or the cursor
sits on a grid boundary; at interior positions a cut is a source
discontinuity or a grid boundary. -/
def cutAt (G plen e c : Nat) (units : List SrcExtent) (q : Nat) : Prop :=
  if q = 0 then 0 < plen ∧ (srcByte units 0 ≠ e ∨ c % G = 0)
  else srcByte units q ≠ srcByte units (q - 1) + 1 ∨ (c + q) % G = 0

instance (G plen e c : Nat) (units : List SrcExtent) :
    DecidablePred (cutAt G plen e c units) := fun q => by
  unfold cutAt
  infer_instance

theorem srcByte_cons_lt (u : SrcExtent) (us : List SrcExtent) (q : Nat) (h : q < u.len) :
    srcByte (u :: us) q = u.addr + q := by
  unfold srcByte
  rw [if_pos h]

theorem srcByte_cons_ge (u : SrcExtent) (us : List SrcExtent) (q : Nat) (h : ¬(q < u.len)) :
    srcByte (u :: us) q = srcByte us (q - u.len) := by
  conv_lhs => unfold srcByte
  rw [if_neg h]

theorem cutAt_shift (G plen e c : Nat) (u : SrcExtent) (us : List SrcExtent)
    (hu : 0 < u.len) (q : Nat) :
    cutAt G plen e c (u :: us) (u.len + q)
      ↔ cutAt G u.len (u.addr + u.len) (c + u.len) us q := by
  by_cases hq : q = 0
  · subst hq
    unfold cutAt
    rw [if_neg (by omega), if_pos rfl]
    rw [srcByte_cons_ge u us (u.len + 0) (by omega)]
    rw [srcByte_cons_lt u us (u.len + 0 - 1) (by omega)]
    have h1 : u.len + 0 - u.len = 0 := by omega
    have h2 : u.addr + (u.len + 0 - 1) + 1 = u.addr + u.len := by omega
    have h3 : c + (u.len + 0) = c + u.len := by omega
    rw [h1, h2, h3]
    constructor
    · intro h
      exact ⟨hu, h⟩
    · rintro ⟨_, h⟩
      exact h
  · unfold cutAt
    rw [if_neg (by omega), if_neg hq]
    rw [srcByte_cons_ge u us (u.len + q) (by omega)]
    rw [srcByte_cons_ge u us (u.len + q - 1) (by omega)]
    have h1 : u.len + q - u.len = q := by omega
    have h2 : u.len + q - 1 - u.len = q - 1 := by omega
    have h3 : c + (u.len + q) = c + u.len + q := by omega
    rw [h1, h2, h3]

theorem card_shift_mod (G c L : Nat) :
    ((Finset.Ioo 0 L).filter (fun q => (c + q) % G = 0)).card
      = cardMult G c (c + L) := by
  unfold cardMult
  have hmap : Finset.Ioo c (c + L) = (Finset.Ioo 0 L).map (addLeftEmbedding c) := by
    rw [Finset.map_add_left_Ioo, Nat.add_zero]
  rw [hmap, Finset.filter_map, Finset.card_map]
  refine congrArg Finset.card (Finset.filter_congr ?_)
  intro q _
  show (c + q) % G = 0 ↔ (addLeftEmbedding c q) % G = 0
  rw [addLeftEmbedding_apply]

/-- The engine's descriptor count equals the number of cut positions of
the remaining stream. -/
theorem runsFrom_eq_cuts (G : Nat) (units : List SrcExtent) : ∀ (plen e c : Nat),
    0 < G → allPos units →
    runsFrom G plen e c units
      = ((Finset.Ico 0 (totalLen units)).filter (cutAt G plen e c units)).card := by
  induction units with
  | nil =>
      intro plen e c hG hall
      show (0 : Nat) = ((Finset.Ico 0 (totalLen [])).filter (cutAt G plen e c [])).card
      have h0 : totalLen [] = 0 := rfl
      rw [h0]
      simp
  | cons u us ih =>
      intro plen e c hG hall
      have hu : 0 < u.len := hall u (List.mem_cons_self u us)
      have hall' : allPos us := fun v hv => hall v (List.mem_cons_of_mem u hv)
      rw [runsFrom_cons, totalLen_cons, ih u.len (u.addr + u.len) (c + u.len) hG hall']
      have hsplit : Finset.Ico 0 (u.len + totalLen us)
          = Finset.Ico 0 u.len ∪ Finset.Ico u.len (u.len + totalLen us) :=
        (Finset.Ico_union_Ico_eq_Ico (by omega) (by omega)).symm
      rw [hsplit, Finset.filter_union,
        Finset.card_union_of_disjoint
          (Finset.disjoint_filter_filter (Finset.Ico_disjoint_Ico_consecutive _ _ _))]
      have hcut0 : cutAt G plen e c (u :: us) 0
          ↔ (0 < plen ∧ (u.addr ≠ e ∨ c % G = 0)) := by
        unfold cutAt
        rw [if_pos rfl]
        have hs : srcByte (u :: us) 0 = u.addr := by
          rw [srcByte_cons_lt u us 0 hu, Nat.add_zero]
        rw [hs]
      have hinterior : (Finset.Ioo 0 u.len).filter (cutAt G plen e c (u :: us))
          = (Finset.Ioo 0 u.len).filter (fun q => (c + q) % G = 0) := by
        refine Finset.filter_congr ?_
        intro q hq
        rw [Finset.mem_Ioo] at hq
        unfold cutAt
        rw [if_neg (by omega)]
        rw [srcByte_cons_lt u us q hq.2, srcByte_cons_lt u us (q - 1) (by omega)]
        constructor
        · rintro (hne | hm)
          · exact absurd (by omega) hne
          · exact hm
        · intro hm
          exact Or.inr hm
      have hA : ((Finset.Ico 0 u.len).filter (cutAt G plen e c (u :: us))).card
          = (if 0 < plen ∧ (u.addr ≠ e ∨ c % G = 0) then 1 else 0)
            + cardMult G c (c + u.len) := by
        rw [← Finset.Ioo_insert_left hu, Finset.filter_insert]
        by_cases hc0 : cutAt G plen e c (u :: us) 0
        · rw [if_pos hc0, Finset.card_insert_of_not_mem (by simp),
            hinterior, card_shift_mod, if_pos (hcut0.mp hc0)]
          omega
        · rw [if_neg hc0, hinterior, card_shift_mod,
            if_neg (fun hcc => hc0 (hcut0.mpr hcc))]
          omega
      have hB : ((Finset.Ico u.len (u.len + totalLen us)).filter
            (cutAt G plen e c (u :: us))).card
          = ((Finset.Ico 0 (totalLen us)).filter
            (cutAt G u.len (u.addr + u.len) (c + u.len) us)).card := by
        have hmap : Finset.Ico u.len (u.len + totalLen us)
            = (Finset.Ico 0 (totalLen us)).map (addLeftEmbedding u.len) := by
          rw [Finset.map_add_left_Ico, Nat.add_zero]
        rw [hmap, Finset.filter_map, Finset.card_map]
        refine congrArg Finset.card (Finset.filter_congr ?_)
        intro q _
        show cutAt G plen e c (u :: us) (addLeftEmbedding u.len q)
          ↔ cutAt G u.len (u.addr + u.len) (c + u.len) us q
        rw [addLeftEmbedding_apply]
        exact cutAt_shift G plen e c u us hu q
      rw [hA, hB]

/-- At the engine's initial state the cut positions are exactly the
interior cuts of `specRunCount`: position 0 is never a cut because the
initial pending extent is empty. -/
theorem cuts_initial (G d0 : Nat) (units : List SrcExtent) (hT : 0 < totalLen units) :
    ((Finset.Ico 0 (totalLen units)).filter (cutAt G 0 0 d0 units)).card
      = ((Finset.Ioo 0 (totalLen units)).filter (isCut G d0 units)).card := by
  rw [← Finset.Ioo_insert_left hT, Finset.filter_insert,
    if_neg (by unfold cutAt; rw [if_pos rfl]; rintro ⟨h0, _⟩; omega)]
  refine congrArg Finset.card (Finset.filter_congr ?_)
  intro q hq
  rw [Finset.mem_Ioo] at hq
  unfold cutAt isCut
  rw [if_neg (by omega)]

theorem totalLen_pos (units : List SrcExtent) (hne : units ≠ []) (hall : allPos units) :
    0 < totalLen units := by
  cases units with
  | nil => exact absurd rfl hne
  | cons u us =>
      have hu : 0 < u.len := hall u (List.mem_cons_self u us)
      rw [totalLen_cons]
      omega

/-- C1: for every destination page-grid size `G > 0`, every starting
destination offset `d0`, and every ordered sequence of nonempty source
extents fed to the DMA coalescing engine of a single task, the number of
emitted copy descriptors equals the number of maximal runs of the byte
stream that are simultaneously source-contiguous and do not cross a
destination `G`-boundary (`specRunCount`), and concatenating the emitted
destination extents in order reproduces exactly the destination range
from `d0` to `d0 + totalLen units` with no gaps and no overlaps
(`chained`); moreover every emitted destination extent stays within a
single destination page-table entry. -/
theorem strom_coalescing_emits_maximal_runs (G d0 : Nat) (units : List SrcExtent)
    (hG : 0 < G) (hall : allPos units) :
    (emitDescs G d0 units).length = specRunCount G d0 units ∧
    chained d0 (emitDescs G d0 units) (d0 + totalLen units) ∧
    allWithinDstPage G (emitDescs G d0 units) = true := by
  by_cases hne : units = []
  · subst hne
    exact ⟨rfl, rfl, rfl⟩
  · have hinv0 : d0 + 0 ≤ nextBound G d0 := by
      have := lt_nextBound G d0 hG
      omega
    have hrun := runEngine_spec G units { srcAddr := 0, dstOff := d0, len := 0 }
      hG hinv0 hall
    obtain ⟨hlen, hch, hend, hinvf, hpos, hwithin⟩ := hrun
    have hRpos : 0 < (runEngine G { srcAddr := 0, dstOff := d0, len := 0 } units).2.len :=
      hpos (Or.inr hne)
    have hlen' : (runEngine G { srcAddr := 0, dstOff := d0, len := 0 } units).1.length
        = runsFrom G 0 0 d0 units := hlen
    have hch' : chained d0 (runEngine G { srcAddr := 0, dstOff := d0, len := 0 } units).1
        (runEngine G { srcAddr := 0, dstOff := d0, len := 0 } units).2.dstOff := hch
    have hend' : (runEngine G { srcAddr := 0, dstOff := d0, len := 0 } units).2.dstOff
          + (runEngine G { srcAddr := 0, dstOff := d0, len := 0 } units).2.len
        = d0 + totalLen units := hend
    have hT : 0 < totalLen units := totalLen_pos units hne hall
    refine ⟨?_, ?_, ?_⟩
    · rw [emitDescs_eq, List.length_append, flushPending_length, if_neg (by omega), hlen',
        runsFrom_eq_cuts G units 0 0 d0 hG hall, cuts_initial G d0 units hT]
      unfold specRunCount
      rw [if_neg (by omega)]
      omega
    · rw [emitDescs_eq, ← hend']
      exact chained_append hch' (chained_flushPending _)
    · rw [emitDescs_eq]
      exact allWithin_append G _ _ hwithin (allWithin_flushPending G hG _ hinvf)

/-- Instantiation of the C1 theorem: grid size 4, starting offset 1, and
three source extents of which the second continues the first and the
third is discontiguous. -/
theorem strom_coalescing_emits_maximal_runs_witness :
    0 < 4 ∧ allPos [⟨10, 3⟩, ⟨13, 2⟩, ⟨100, 5⟩] ∧
    ((emitDescs 4 1 [⟨10, 3⟩, ⟨13, 2⟩, ⟨100, 5⟩]).length
        = specRunCount 4 1 [⟨10, 3⟩, ⟨13, 2⟩, ⟨100, 5⟩] ∧
      chained 1 (emitDescs 4 1 [⟨10, 3⟩, ⟨13, 2⟩, ⟨100, 5⟩])
        (1 + totalLen [⟨10, 3⟩, ⟨13, 2⟩, ⟨100, 5⟩]) ∧
      allWithinDstPage 4 (emitDescs 4 1 [⟨10, 3⟩, ⟨13, 2⟩, ⟨100, 5⟩]) = true) :=
  ⟨by decide, by decide,
   strom_coalescing_emits_maximal_runs 4 1 [⟨10, 3⟩, ⟨13, 2⟩, ⟨100, 5⟩]
     (by decide) (by decide)⟩

end NvmeStrom
